import Mathlib

/-!
Shallow embedding of the repository's storage engine
(`src/assignment_1/src/HashTable.cpp`, `src/assignment_1/src/TextProcessor.cpp`)
and proofs of the specification claims about it.

Modelling conventions:
* C++ `std::string` values (both keys and raw file bytes) are modelled as
  `List Nat` byte strings.
* C++ `int` is modelled as `Int`; fields that the code keeps non-negative
  by construction (`size`, which it would be an exception to make negative,
  see `load_from_file`) are modelled as `Nat`.
* The on-disk file written by `save_to_file` is the list of its bytes;
  32-bit integers are stored in little-endian two's complement exactly as
  `file.write(reinterpret_cast<const char*>(&x), 4)` does on the target.
* `std::hash<std::string>` is an unspecified deterministic hash, so every
  operation is parameterised by an arbitrary `hashFn : List Nat → Nat`.
* Thrown exceptions are modelled with `Except`/`Option`.
-/

/-- A key is a byte string (`std::string`). -/
abbrev Key := List Nat

/-- Errors thrown by the hash-table operations:
`overflow` models `std::overflow_error`, `keyNotFound` models
`std::invalid_argument("Key not found")`. -/
inductive HTError where
  | overflow
  | keyNotFound
deriving Repr, DecidableEq

/-- Decidable equality for `Except`, to evaluate the model on concrete
inputs. -/
instance {ε α : Type} [DecidableEq ε] [DecidableEq α] :
    DecidableEq (Except ε α) := fun a b =>
  match a, b with
  | .ok x, .ok y =>
    if h : x = y then .isTrue (by rw [h]) else .isFalse (by simp [h])
  | .error x, .error y =>
    if h : x = y then .isTrue (by rw [h]) else .isFalse (by simp [h])
  | .ok _, .error _ => .isFalse (by simp)
  | .error _, .ok _ => .isFalse (by simp)

/-- The `HashTable` class state (`include/HashTable.h`):
`table` is `vector<pair<string,int>>`, `occupied` is `vector<char>`,
`first_index`/`last_index`/`elements_count` are `int` fields and
`size` is the `int` capacity (kept as `Nat`, see module comment). -/
structure HashTable where
  table : List (Key × Int)
  occupied : List Bool
  first_index : Int
  last_index : Int
  size : Nat
  elements_count : Int
deriving Repr, DecidableEq

/-- The constructor `HashTable::HashTable(int size)`:
`table(size, {"", 0}), occupied(size, false), first_index(-1),
last_index(-1), size(size), elements_count(0)`. -/
def HashTable.init (n : Nat) : HashTable :=
  ⟨List.replicate n ([], 0), List.replicate n false, -1, -1, n, 0⟩

/-- `HashTable::hash`: `hash_fn(key) % table_size`. -/
def homeIndex (hashFn : Key → Nat) (key : Key) (table_size : Nat) : Nat :=
  hashFn key % table_size

/-- `HashTable::linear_probe`: advance `(index + 1) % table_size` while the
slot is occupied; the C++ loop throws `overflow_error` when it wraps back to
the original index, i.e. after examining `table_size` slots, which the `fuel`
argument counts down. -/
def linear_probe (table_occupied : List Bool) (table_size : Nat) :
    Nat → Nat → Option Nat
  | _, 0 => none
  | index, fuel + 1 =>
    if table_occupied.getD index false then
      linear_probe table_occupied table_size ((index + 1) % table_size) fuel
    else
      some index

/-- The rehash loop inside `HashTable::resize`: for each old physical index
`i` (in order), if `occupied[i]` then re-insert `table[i]` into the new
arrays via `linear_probe`, updating `new_first_index` when `i` was the old
`first_index` and always updating `new_last_index`.  `none` models the
`overflow_error` thrown out of `linear_probe`. -/
def rehashAux (hashFn : Key → Nat) (ht : HashTable) (new_size : Nat) :
    List Nat → List (Key × Int) → List Bool → Int → Int →
    Option (List (Key × Int) × List Bool × Int × Int)
  | [], ntab, nocc, nfi, nli => some (ntab, nocc, nfi, nli)
  | i :: rest, ntab, nocc, nfi, nli =>
    if ht.occupied.getD i false then
      let p := ht.table.getD i ([], 0)
      match linear_probe nocc new_size (homeIndex hashFn p.1 new_size) new_size with
      | none => none
      | some j =>
        rehashAux hashFn ht new_size rest (ntab.set j p) (nocc.set j true)
          (if (i : Int) = ht.first_index then (j : Int) else nfi) (j : Int)
    else
      rehashAux hashFn ht new_size rest ntab nocc nfi nli

/-- `HashTable::resize`: `new_size = size + 2000`, fresh arrays, rehash all
occupied slots in physical order, then replace the table.
`elements_count` is not touched by the C++ code. -/
def resize (hashFn : Key → Nat) (ht : HashTable) : Option HashTable :=
  let new_size := ht.size + 2000
  match rehashAux hashFn ht new_size (List.range ht.size)
      (List.replicate new_size ([], 0)) (List.replicate new_size false) (-1) (-1) with
  | none => none
  | some (ntab, nocc, nfi, nli) =>
    some ⟨ntab, nocc, nfi, nli, new_size, ht.elements_count⟩

/-- The probing loop of `HashTable::insert` (`for (int i = 0; i < size; ++i)`):
on an occupied slot with a matching key overwrite the value
(`table[index].second = value`) and return; on an occupied slot with a
different key step to `(index + 1) % size`; on an empty slot write the new
entry, mark it occupied, bump `elements_count` and the order-tracking
indices.  Exhausting the loop throws `overflow_error`. -/
def insertAux (key : Key) (value : Int) (ht : HashTable) :
    Nat → Nat → Except HTError HashTable
  | _, 0 => .error .overflow
  | index, fuel + 1 =>
    if ht.occupied.getD index false then
      if (ht.table.getD index ([], 0)).1 = key then
        .ok { ht with table := ht.table.set index ((ht.table.getD index ([], 0)).1, value) }
      else
        insertAux key value ht ((index + 1) % ht.size) fuel
    else
      .ok { ht with
        table := ht.table.set index (key, value),
        occupied := ht.occupied.set index true,
        elements_count := ht.elements_count + 1,
        first_index := if ht.first_index = -1 then (index : Int) else ht.first_index,
        last_index := (index : Int) }

/-- `HashTable::insert`: resize first when `elements_count == size`, then
probe from `hash(key, size)`. -/
def insert (hashFn : Key → Nat) (ht : HashTable) (key : Key) (value : Int) :
    Except HTError HashTable :=
  if ht.elements_count = (ht.size : Int) then
    match resize hashFn ht with
    | none => .error .overflow
    | some ht2 => insertAux key value ht2 (homeIndex hashFn key ht2.size) ht2.size
  else
    insertAux key value ht (homeIndex hashFn key ht.size) ht.size

/-- The probing loop of `HashTable::get`: up to `size` consecutive slots are
examined; a slot terminates the scan only when it is occupied *and* holds the
key (empty slots are skipped, not terminal). -/
def getAux (ht : HashTable) (key : Key) : Nat → Nat → Except HTError Int
  | _, 0 => .error .keyNotFound
  | index, fuel + 1 =>
    if ht.occupied.getD index false ∧ (ht.table.getD index ([], 0)).1 = key then
      .ok (ht.table.getD index ([], 0)).2
    else
      getAux ht key ((index + 1) % ht.size) fuel

/-- `HashTable::get`. -/
def get (hashFn : Key → Nat) (ht : HashTable) (key : Key) : Except HTError Int :=
  getAux ht key (homeIndex hashFn key ht.size) ht.size

/-- The probing loop of `HashTable::remove`: like `get`'s loop; on a match it
clears the slot, decrements `elements_count` and resets `first_index` /
`last_index` to `-1` when they pointed at the removed slot. -/
def removeAux (key : Key) (ht : HashTable) : Nat → Nat → Except HTError HashTable
  | _, 0 => .error .keyNotFound
  | index, fuel + 1 =>
    if ht.occupied.getD index false ∧ (ht.table.getD index ([], 0)).1 = key then
      .ok { ht with
        occupied := ht.occupied.set index false,
        table := ht.table.set index ([], 0),
        elements_count := ht.elements_count - 1,
        first_index := if (index : Int) = ht.first_index then -1 else ht.first_index,
        last_index := if (index : Int) = ht.last_index then -1 else ht.last_index }
    else
      removeAux key ht ((index + 1) % ht.size) fuel

/-- `HashTable::remove`. -/
def remove (hashFn : Key → Nat) (ht : HashTable) (key : Key) :
    Except HTError HashTable :=
  removeAux key ht (homeIndex hashFn key ht.size) ht.size

/-- `HashTable::get_stats`: recounts the occupied flags and returns
`(count, size)`. -/
def get_stats (ht : HashTable) : Nat × Nat :=
  (ht.occupied.count true, ht.size)

/-- Little-endian two's-complement encoding of a C++ `int`, as written by
`file.write(reinterpret_cast<const char*>(&x), sizeof(int))`. -/
def writeI32 (n : Int) : List Nat :=
  let m := (n % 4294967296).toNat
  [m % 256, m / 256 % 256, m / 65536 % 256, m / 16777216 % 256]

/-- Reading a C++ `int` with `file.read(reinterpret_cast<char*>(&x), 4)`:
`none` models the short read that sets `failbit`. -/
def readI32 : List Nat → Option (Int × List Nat)
  | b0 :: b1 :: b2 :: b3 :: rest =>
    let m := b0 % 256 + 256 * (b1 % 256) + 65536 * (b2 % 256) + 16777216 * (b3 % 256)
    some (if m < 2147483648 then (m : Int) else (m : Int) - 4294967296, rest)
  | _ => none

/-- Reading `n` raw bytes (`file.read(&key[0], key_size)`); `none` models a
short read. -/
def readBytes (n : Nat) (l : List Nat) : Option (List Nat × List Nat) :=
  if n ≤ l.length then some (l.take n, l.drop n) else none

/-- Reading one byte (`file.read(&is_occupied, sizeof(char))`). -/
def readByte : List Nat → Option (Nat × List Nat)
  | b :: rest => some (b, rest)
  | [] => none

/-- The bytes `save_to_file` writes for one slot: `key_size` (`int`), the raw
key bytes, the value (`int`) and the occupancy flag as one `char`. -/
def saveSlot (slot : Key × Int) (occ : Bool) : List Nat :=
  writeI32 (slot.1.length : Int) ++ slot.1 ++ writeI32 slot.2 ++
    [if occ then 1 else 0]

/-- The per-index slot pairs in the order `save_to_file`'s loop visits them. -/
def slotPairs (ht : HashTable) : List ((Key × Int) × Bool) :=
  (List.range ht.size).map fun i => (ht.table.getD i ([], 0), ht.occupied.getD i false)

/-- Concatenation of the per-slot encodings. -/
def encodeSlots (l : List ((Key × Int) × Bool)) : List Nat :=
  l.flatMap fun sb => saveSlot sb.1 sb.2

/-- `HashTable::save_to_file`: the byte stream written to the file — the four
header `int`s (`size`, `elements_count`, `first_index`, `last_index`)
followed by every slot in index order.  (Failure to open the file throws and
writes nothing; the claims quantify over successfully written files.) -/
def save_to_file (ht : HashTable) : List Nat :=
  writeI32 (ht.size : Int) ++ writeI32 ht.elements_count ++
    writeI32 ht.first_index ++ writeI32 ht.last_index ++ encodeSlots (slotPairs ht)

/-- One iteration of `load_from_file`'s slot loop: read `key_size`, validate
`0 ≤ key_size ≤ 1000`, read the key bytes, the value and the occupancy
`char`.  `none` models any of the `break`s. -/
def readSlot (f : List Nat) : Option (((Key × Int) × Bool) × List Nat) :=
  match readI32 f with
  | none => none
  | some (ks, f1) =>
    if ks < 0 ∨ 1000 < ks then none
    else
      match readBytes ks.toNat f1 with
      | none => none
      | some (key, f2) =>
        match readI32 f2 with
        | none => none
        | some (v, f3) =>
          match readByte f3 with
          | none => none
          | some (c, f4) => some (((key, v), c == 1), f4)

/-- The slots that `load_from_file`'s loop successfully parses from the byte
stream before it `break`s or finishes `n` iterations. -/
def parseSlots (f : List Nat) : Nat → List ((Key × Int) × Bool)
  | 0 => []
  | n + 1 =>
    match readSlot f with
    | none => []
    | some (s, f') => s :: parseSlots f' n

/-- `std::vector::resize(n)` with default element `d`: keep the first `n`
elements and pad with `d`. -/
def listResize (l : List α) (n : Nat) (d : α) : List α :=
  l.take n ++ List.replicate (n - l.length) d

/-- `load_from_file`'s slot loop: iterate the indices, reading one slot per
index into `table[i]` / `occupied[i]`, stopping (with the arrays as they are)
at the first failed or invalid read. -/
def loadSlots (f : List Nat) (tab : List (Key × Int)) (occ : List Bool) :
    List Nat → List (Key × Int) × List Bool
  | [] => (tab, occ)
  | i :: rest =>
    match readSlot f with
    | none => (tab, occ)
    | some (((key, v), b), f') =>
      loadSlots f' (tab.set i (key, v)) (occ.set i b) rest

/-- The four header reads of `load_from_file`. -/
def readHeader (f : List Nat) : Option ((Int × Int × Int × Int) × List Nat) :=
  match readI32 f with
  | none => none
  | some (sz, f1) =>
    match readI32 f1 with
    | none => none
    | some (cnt, f2) =>
      match readI32 f2 with
      | none => none
      | some (fi, f3) =>
        match readI32 f3 with
        | none => none
        | some (li, f4) => some ((sz, cnt, fi, li), f4)

/-- `HashTable::load_from_file`.  The argument is `none` when the file cannot
be opened (`return false`).  Each header field updates the corresponding
member as it is read; a failed header read returns `false`.  After the
header, `table.resize(size)` / `occupied.resize(size)` run — with a negative
`size` the `int → size_t` conversion makes `std::vector::resize` throw,
modelled as `none` (in the unreachable corner where `size` was read negative
but a *later* header read fails, the clamped `Int.toNat` stands in for the
stored negative `int`, which no subsequent claim observes).  Then the slot
loop fills the arrays and the function returns `true` regardless of how far
the loop got. -/
def load_from_file (fileOpt : Option (List Nat)) (ht : HashTable) :
    Option (Bool × HashTable) :=
  match fileOpt with
  | none => some (false, ht)
  | some f =>
    match readI32 f with
    | none => some (false, ht)
    | some (szI, f1) =>
      match readI32 f1 with
      | none => some (false, { ht with size := szI.toNat })
      | some (cnt, f2) =>
        match readI32 f2 with
        | none => some (false, { ht with size := szI.toNat, elements_count := cnt })
        | some (fi, f3) =>
          match readI32 f3 with
          | none => some (false,
              { ht with size := szI.toNat, elements_count := cnt, first_index := fi })
          | some (li, f4) =>
            if szI < 0 then none
            else
              let sz := szI.toNat
              let tab0 := listResize ht.table sz ([], 0)
              let occ0 := listResize ht.occupied sz false
              let r := loadSlots f4 tab0 occ0 (List.range sz)
              some (true, ⟨r.1, r.2, fi, li, sz, cnt⟩)

/-- ASCII letter or digit — the complement of `clean_text`'s regex character
class `[^a-zA-Z0-9]`. -/
def isAlnum (c : Nat) : Bool :=
  (48 ≤ c && c ≤ 57) || (65 ≤ c && c ≤ 90) || (97 ≤ c && c ≤ 122)

/-- Whitespace as skipped by `operator>>` in the default "C" locale
(`isspace`): space, \t, \n, \v, \f, \r. -/
def isWSpace (c : Nat) : Bool :=
  c == 32 || c == 9 || c == 10 || c == 11 || c == 12 || c == 13

/-- Worker for `clean_text`'s `regex_replace(text, "[^a-zA-Z0-9]+", " ")`:
the flag records that the current maximal non-alphanumeric run has already
emitted its single replacement space. -/
def cleanTextAux : Bool → List Nat → List Nat
  | _, [] => []
  | inRun, c :: rest =>
    if isAlnum c then c :: cleanTextAux false rest
    else if inRun then cleanTextAux true rest
    else 32 :: cleanTextAux true rest

/-- `TextProcessor::clean_text`: replace each maximal run of
non-alphanumeric characters with a single space. -/
def clean_text (text : List Nat) : List Nat :=
  cleanTextAux false text

/-- Worker for whitespace tokenisation (`file >> word` and
`stringstream >> processed_word`): `acc` is the current token, reversed. -/
def splitWSAux : List Nat → List Nat → List (List Nat)
  | acc, [] => if acc = [] then [] else [acc.reverse]
  | acc, c :: rest =>
    if isWSpace c then
      if acc = [] then splitWSAux [] rest
      else acc.reverse :: splitWSAux [] rest
    else
      splitWSAux (c :: acc) rest

/-- The whitespace-delimited tokens of a byte stream. -/
def splitWS (l : List Nat) : List (List Nat) :=
  splitWSAux [] l

/-- `::tolower` in the "C" locale. -/
def toLowerByte (c : Nat) : Nat :=
  if 65 ≤ c ∧ c ≤ 90 then c + 32 else c

/-- The `try { get; insert(count+1) } catch (invalid_argument) { insert(1) }`
body of `extract_words`. -/
def countWord (hashFn : Key → Nat) (ht : HashTable) (w : Key) :
    Except HTError HashTable :=
  match get hashFn ht w with
  | .ok c => insert hashFn ht w (c + 1)
  | .error _ => insert hashFn ht w 1

/-- The inner loop of `extract_words` over the sub-tokens of one cleaned raw
token: lower-case, skip empty, count.  (An `overflow_error` from `insert` is
not caught and propagates.) -/
def countSubwords (hashFn : Key → Nat) :
    List (List Nat) → HashTable → Except HTError HashTable
  | [], ht => .ok ht
  | w :: ws, ht =>
    let lw := w.map toLowerByte
    if lw = [] then countSubwords hashFn ws ht
    else
      match countWord hashFn ht lw with
      | .ok ht' => countSubwords hashFn ws ht'
      | .error e => .error e

/-- `TextProcessor::extract_words` on an in-memory token stream: for each raw
token, clean it, re-tokenise the cleaned text and count each sub-token. -/
def extract_words (hashFn : Key → Nat) :
    List (List Nat) → HashTable → Except HTError HashTable
  | [], ht => .ok ht
  | t :: ts, ht =>
    match countSubwords hashFn (splitWS (clean_text t)) ht with
    | .ok ht' => extract_words hashFn ts ht'
    | .error e => .error e

/-- The byte stream that `compute_md5`'s read loop actually feeds to
`MD5_Update`: `while (file.read(buffer, 4096)) MD5_Update(..., gcount())`
iterates only while a *full* 4096-byte buffer was read, so the final partial
buffer is dropped. -/
def md5UpdatedBytes (file : List Nat) : List Nat :=
  if _hfull : 4096 ≤ file.length then
    file.take 4096 ++ md5UpdatedBytes (file.drop 4096)
  else
    []
termination_by file.length
decreasing_by
  simp only [List.length_drop]
  omega

/-- Number of characters `md5_string << hex << static_cast<int>(b)` produces
for one digest byte `b < 256`: no `setw`/`setfill`, so bytes below 16 print a
single digit. -/
def hexDigitCount (b : Nat) : Nat :=
  if b < 16 then 1 else 2

/-- Length of the hex string `compute_md5` renders for a 16-byte digest. -/
def md5HexLength (digest : List Nat) : Nat :=
  (digest.map hexDigitCount).sum

/-- The occupied `(key, value)` entries of a table/occupied pair, in slot
order. -/
def entriesZ : List (Key × Int) → List Bool → List (Key × Int)
  | _, [] => []
  | [], _ :: _ => []
  | p :: tab, true :: occ => p :: entriesZ tab occ
  | _ :: tab, false :: occ => entriesZ tab occ

/-- Slot `i` is occupied and holds `key`. -/
def isHit (ht : HashTable) (key : Key) (i : Nat) : Prop :=
  ht.occupied.getD i false = true ∧ (ht.table.getD i ([], 0)).1 = key

/-- Structural soundness: the two arrays have length `size` and
`elements_count` counts the occupied flags. -/
def Sound (ht : HashTable) : Prop :=
  ht.table.length = ht.size ∧ ht.occupied.length = ht.size ∧
    ht.elements_count = (ht.occupied.count true : Int)

/-- Well-formedness used by the probing proofs: correct array lengths, a
positive capacity and no duplicate occupied keys. -/
def WF (ht : HashTable) : Prop :=
  ht.table.length = ht.size ∧ ht.occupied.length = ht.size ∧ 0 < ht.size ∧
    ((entriesZ ht.table ht.occupied).map Prod.fst).Nodup

/-- Modelled from the spec: `get` as §4.1 of the spec describes it — "probe
from `home` until the key is found (success) or an empty slot is encountered
(fails with `KeyNotFound`) or `capacity` probes are exhausted". This differs
from the source's `getAux`, which skips empty slots. -/
def getSpecAux (ht : HashTable) (key : Key) : Nat → Nat → Except HTError Int
  | _, 0 => .error .keyNotFound
  | index, fuel + 1 =>
    if ht.occupied.getD index false then
      if (ht.table.getD index ([], 0)).1 = key then
        .ok (ht.table.getD index ([], 0)).2
      else
        getSpecAux ht key ((index + 1) % ht.size) fuel
    else
      .error .keyNotFound

/-- Modelled from the spec: the spec's stop-at-first-empty `get`. -/
def getSpec (hashFn : Key → Nat) (ht : HashTable) (key : Key) :
    Except HTError Int :=
  getSpecAux ht key (homeIndex hashFn key ht.size) ht.size

/-- Store states reachable from a freshly constructed store by the public
mutating operations *except* `load_from_file`: successful `insert`,
successful `remove` and the internal growth step (`save_to_file` does not
modify the store). -/
inductive Reach (hashFn : Key → Nat) : HashTable → Prop
  | init (n : Nat) : Reach hashFn (HashTable.init n)
  | insert_ok {ht ht' k v} : Reach hashFn ht → insert hashFn ht k v = .ok ht' →
      Reach hashFn ht'
  | remove_ok {ht ht' k} : Reach hashFn ht → remove hashFn ht k = .ok ht' →
      Reach hashFn ht'
  | resize_ok {ht ht'} : Reach hashFn ht → resize hashFn ht = some ht' →
      Reach hashFn ht'

/-- Store states reachable when `load_from_file` (from an arbitrary on-disk
file, as in the source) is also allowed, as claim C9 lists it. -/
inductive ReachL (hashFn : Key → Nat) : HashTable → Prop
  | init (n : Nat) : ReachL hashFn (HashTable.init n)
  | insert_ok {ht ht' k v} : ReachL hashFn ht → insert hashFn ht k v = .ok ht' →
      ReachL hashFn ht'
  | remove_ok {ht ht' k} : ReachL hashFn ht → remove hashFn ht k = .ok ht' →
      ReachL hashFn ht'
  | resize_ok {ht ht'} : ReachL hashFn ht → resize hashFn ht = some ht' →
      ReachL hashFn ht'
  | load_ok {ht ht' f b} : ReachL hashFn ht →
      load_from_file (some f) ht = some (b, ht') → ReachL hashFn ht'

/-- A value representable in a C++ `int`. -/
def Int32 (n : Int) : Prop :=
  -2147483648 ≤ n ∧ n < 2147483648

/-- A concrete hash function used to instantiate witnesses and
counterexamples (any deterministic `std::hash` stand-in works). -/
def hashZero : Key → Nat := fun _ => 0

/-- The bytes of `"Hello, World! hello"`. -/
def helloWorldBytes : List Nat :=
  [72, 101, 108, 108, 111, 44, 32, 87, 111, 114, 108, 100, 33, 32,
   104, 101, 108, 108, 111]

/-- The bytes of `"hello"`. -/
def helloKey : Key := [104, 101, 108, 108, 111]

/-- The bytes of `"world"`. -/
def worldKey : Key := [119, 111, 114, 108, 100]

theorem getD_lt {α} (l : List α) (i : Nat) (d : α) (h : i < l.length) :
    l.getD i d = l[i] := by
  simp [List.getD_eq_getElem?_getD, List.getElem?_eq_getElem h]

theorem getD_ge {α} (l : List α) (i : Nat) (d : α) (h : l.length ≤ i) :
    l.getD i d = d := by
  simp [List.getD_eq_getElem?_getD, List.getElem?_eq_none h]

theorem getD_set_self {α} (l : List α) (i : Nat) (a d : α) (h : i < l.length) :
    (l.set i a).getD i d = a := by
  simp [List.getD_eq_getElem?_getD, List.getElem?_set_self, h]

theorem getD_set_ne {α} (l : List α) {i j : Nat} (h : i ≠ j) (a d : α) :
    (l.set i a).getD j d = l.getD j d := by
  simp [List.getD_eq_getElem?_getD, List.getElem?_set_ne h]

theorem lt_length_of_getD_true (l : List Bool) (i : Nat)
    (h : l.getD i false = true) : i < l.length := by
  by_contra hc
  push_neg at hc
  rw [getD_ge _ _ _ hc] at h
  exact Bool.false_ne_true h

theorem count_set_true (l : List Bool) (i : Nat) (hi : i < l.length)
    (h : l.getD i false = false) :
    (l.set i true).count true = l.count true + 1 := by
  have hv : l[i] = false := by rw [← getD_lt l i false hi]; exact h
  rw [List.count_set true true l i hi]
  simp [hv]

theorem count_set_false (l : List Bool) (i : Nat) (hi : i < l.length)
    (h : l.getD i false = true) :
    (l.set i false).count true + 1 = l.count true := by
  have hv : l[i] = true := by rw [← getD_lt l i false hi]; exact h
  have hpos : 0 < l.count true := by
    have hm : (true : Bool) ∈ l := by
      have := List.getElem_mem hi
      rwa [hv] at this
    exact List.count_pos_iff.mpr hm
  rw [List.count_set false true l i hi]
  simp only [hv]
  simp
  omega

theorem exists_false_of_count_lt (l : List Bool) (h : l.count true < l.length) :
    ∃ j, j < l.length ∧ l.getD j false = false := by
  induction l with
  | nil => simp at h
  | cons b t ih =>
    cases b with
    | false => exact ⟨0, by simp, by simp⟩
    | true =>
      simp only [List.count_cons, List.length_cons] at h
      have ht : t.count true < t.length := by simpa using h
      obtain ⟨j, hj, hjv⟩ := ih ht
      exact ⟨j + 1, by simpa using hj, by simpa using hjv⟩

theorem exists_probe_offset (size i idx : Nat) (hpos : 0 < size) (hi : i < size)
    (hidx : idx < size) : ∃ t, t < size ∧ (idx + t) % size = i := by
  refine ⟨(size + i - idx) % size, Nat.mod_lt _ hpos, ?_⟩
  rw [Nat.add_mod_mod]
  have harith : idx + (size + i - idx) = size + i := by omega
  rw [harith, Nat.add_mod_left, Nat.mod_eq_of_lt hi]

theorem entriesZ_length (occ : List Bool) :
    ∀ (tab : List (Key × Int)), tab.length = occ.length →
      (entriesZ tab occ).length = occ.count true := by
  induction occ with
  | nil => intro tab _; cases tab <;> simp [entriesZ]
  | cons b occt ih =>
    intro tab h
    cases tab with
    | nil => simp at h
    | cons p tabt =>
      have ht : tabt.length = occt.length := by simpa using h
      cases b <;> simp [entriesZ, ih tabt ht, List.count_cons]

theorem mem_entriesZ_iff (occ : List Bool) :
    ∀ (tab : List (Key × Int)), tab.length = occ.length → ∀ e,
      (e ∈ entriesZ tab occ ↔
        ∃ i, i < occ.length ∧ occ.getD i false = true ∧ tab.getD i ([], 0) = e) := by
  induction occ with
  | nil =>
    intro tab _ e
    cases tab <;> simp [entriesZ]
  | cons b occt ih =>
    intro tab h e
    cases tab with
    | nil => simp at h
    | cons p tabt =>
      have ht : tabt.length = occt.length := by simpa using h
      cases b with
      | true =>
        simp only [entriesZ, List.mem_cons, ih tabt ht e]
        constructor
        · rintro (rfl | ⟨i, hi, ho, he⟩)
          · exact ⟨0, by simp, by simp, by simp⟩
          · refine ⟨i + 1, by simp; omega, ?_, ?_⟩
            · simpa [List.getD_cons_succ] using ho
            · simpa [List.getD_cons_succ] using he
        · rintro ⟨i, hi, ho, he⟩
          cases i with
          | zero =>
            left
            simp [List.getD_cons_zero] at he
            exact he.symm
          | succ i' =>
            right
            refine ⟨i', by simp at hi; omega, ?_, ?_⟩
            · simpa [List.getD_cons_succ] using ho
            · simpa [List.getD_cons_succ] using he
      | false =>
        simp only [entriesZ, ih tabt ht e]
        constructor
        · rintro ⟨i, hi, ho, he⟩
          refine ⟨i + 1, by simp; omega, ?_, ?_⟩
          · simpa [List.getD_cons_succ] using ho
          · simpa [List.getD_cons_succ] using he
        · rintro ⟨i, hi, ho, he⟩
          cases i with
          | zero => simp [List.getD_cons_zero] at ho
          | succ i' =>
            refine ⟨i', by simp at hi; omega, ?_, ?_⟩
            · simpa [List.getD_cons_succ] using ho
            · simpa [List.getD_cons_succ] using he

theorem entriesZ_set_perm (j : Nat) :
    ∀ (tab : List (Key × Int)) (occ : List Bool), tab.length = occ.length →
      j < occ.length → occ.getD j false = false → ∀ p : Key × Int,
      (entriesZ (tab.set j p) (occ.set j true)).Perm (p :: entriesZ tab occ) := by
  induction j with
  | zero =>
    intro tab occ h hj hocc p
    cases occ with
    | nil => simp at hj
    | cons b occt =>
      cases tab with
      | nil => simp at h
      | cons q tabt =>
        have hb : b = false := by simpa using hocc
        subst hb
        simp [entriesZ]
  | succ j' ih =>
    intro tab occ h hj hocc p
    cases occ with
    | nil => simp at hj
    | cons b occt =>
      cases tab with
      | nil => simp at h
      | cons q tabt =>
        have ht : tabt.length = occt.length := by simpa using h
        have hj' : j' < occt.length := by simp at hj; omega
        have hocc' : occt.getD j' false = false := by
          simpa [List.getD_cons_succ] using hocc
        have hrec := ih tabt occt ht hj' hocc' p
        cases b with
        | true =>
          simp only [List.set_cons_succ, entriesZ]
          exact ((hrec.cons q).trans (List.Perm.swap p q _))
        | false =>
          simp only [List.set_cons_succ, entriesZ]
          exact hrec

theorem hit_unique_aux (occ : List Bool) :
    ∀ (tab : List (Key × Int)), tab.length = occ.length →
      ((entriesZ tab occ).map Prod.fst).Nodup →
      ∀ i j k, occ.getD i false = true → occ.getD j false = true →
        (tab.getD i ([], 0)).1 = k → (tab.getD j ([], 0)).1 = k → i = j := by
  induction occ with
  | nil =>
    intro tab _ _ i j k hi _ _ _
    have := lt_length_of_getD_true _ _ hi
    simp at this
  | cons b occt ih =>
    intro tab h hnd i j k hi hj hki hkj
    cases tab with
    | nil => simp at h
    | cons q tabt =>
      have ht : tabt.length = occt.length := by simpa using h
      cases i with
      | zero =>
        cases j with
        | zero => rfl
        | succ j' =>
          exfalso
          have hb : b = true := by simpa using hi
          subst hb
          simp only [entriesZ, List.map_cons, List.nodup_cons] at hnd
          have hj2 : occt.getD j' false = true := by
            simpa [List.getD_cons_succ] using hj
          have hkj2 : (tabt.getD j' ([], 0)).1 = k := by
            simpa [List.getD_cons_succ] using hkj
          have hjl : j' < occt.length := lt_length_of_getD_true _ _ hj2
          have hmem : (tabt.getD j' ([], 0)) ∈ entriesZ tabt occt :=
            (mem_entriesZ_iff occt tabt ht _).mpr ⟨j', hjl, hj2, rfl⟩
          have hmk : (tabt.getD j' ([], 0)).1 ∈ (entriesZ tabt occt).map Prod.fst :=
            List.mem_map_of_mem _ hmem
          rw [hkj2] at hmk
          have hq : q.1 = k := by simpa using hki
          rw [← hq] at hmk
          exact hnd.1 hmk
      | succ i' =>
        cases j with
        | zero =>
          exfalso
          have hb : b = true := by simpa using hj
          subst hb
          simp only [entriesZ, List.map_cons, List.nodup_cons] at hnd
          have hi2 : occt.getD i' false = true := by
            simpa [List.getD_cons_succ] using hi
          have hki2 : (tabt.getD i' ([], 0)).1 = k := by
            simpa [List.getD_cons_succ] using hki
          have hil : i' < occt.length := lt_length_of_getD_true _ _ hi2
          have hmem : (tabt.getD i' ([], 0)) ∈ entriesZ tabt occt :=
            (mem_entriesZ_iff occt tabt ht _).mpr ⟨i', hil, hi2, rfl⟩
          have hmk : (tabt.getD i' ([], 0)).1 ∈ (entriesZ tabt occt).map Prod.fst :=
            List.mem_map_of_mem _ hmem
          rw [hki2] at hmk
          have hq : q.1 = k := by simpa using hkj
          rw [← hq] at hmk
          exact hnd.1 hmk
        | succ j' =>
          have hnd' : ((entriesZ tabt occt).map Prod.fst).Nodup := by
            cases b with
            | true =>
              simp only [entriesZ, List.map_cons, List.nodup_cons] at hnd
              exact hnd.2
            | false => simpa [entriesZ] using hnd
          have := ih tabt ht hnd' i' j' k
            (by simpa [List.getD_cons_succ] using hi)
            (by simpa [List.getD_cons_succ] using hj)
            (by simpa [List.getD_cons_succ] using hki)
            (by simpa [List.getD_cons_succ] using hkj)
          omega

theorem getAux_ok_of_hit (ht : HashTable) (k : Key) (i : Nat)
    (huniq : ∀ j, isHit ht k j → j = i) (hi : isHit ht k i) :
    ∀ fuel idx, idx < ht.size → (∃ t, t < fuel ∧ (idx + t) % ht.size = i) →
      getAux ht k idx fuel = .ok (ht.table.getD i ([], 0)).2 := by
  intro fuel
  induction fuel with
  | zero =>
    rintro idx _ ⟨t, ht0, _⟩
    omega
  | succ n ih =>
    rintro idx hidx ⟨t, htl, hteq⟩
    by_cases hc : ht.occupied.getD idx false = true ∧ (ht.table.getD idx ([], 0)).1 = k
    · have hii : idx = i := huniq idx hc
      subst hii
      simp only [getAux]
      rw [if_pos hc]
    · have ht0 : t ≠ 0 := by
        rintro rfl
        rw [Nat.add_zero, Nat.mod_eq_of_lt hidx] at hteq
        exact hc (hteq ▸ hi)
      obtain ⟨t', rfl⟩ : ∃ t', t = t' + 1 := ⟨t - 1, by omega⟩
      have hpos : 0 < ht.size := by omega
      have hstep : ((idx + 1) % ht.size + t') % ht.size = i := by
        rw [Nat.mod_add_mod]
        have harr : idx + 1 + t' = idx + (t' + 1) := by omega
        rw [harr]
        exact hteq
      simp only [getAux]
      rw [if_neg hc]
      exact ih ((idx + 1) % ht.size) (Nat.mod_lt _ hpos) ⟨t', by omega, hstep⟩

theorem getAux_ok_imp (ht : HashTable) (k : Key) :
    ∀ fuel idx v, getAux ht k idx fuel = .ok v →
      ∃ i, isHit ht k i ∧ (ht.table.getD i ([], 0)).2 = v := by
  intro fuel
  induction fuel with
  | zero => intro idx v h; simp [getAux] at h
  | succ n ih =>
    intro idx v h
    by_cases hc : ht.occupied.getD idx false = true ∧ (ht.table.getD idx ([], 0)).1 = k
    · simp only [getAux] at h
      rw [if_pos hc] at h
      exact ⟨idx, hc, by injection h⟩
    · simp only [getAux] at h
      rw [if_neg hc] at h
      exact ih _ _ h

theorem getAux_err_of_no_hit (ht : HashTable) (k : Key)
    (h : ∀ j, ¬ isHit ht k j) :
    ∀ fuel idx, getAux ht k idx fuel = .error .keyNotFound := by
  intro fuel
  induction fuel with
  | zero => intro idx; simp [getAux]
  | succ n ih =>
    intro idx
    simp only [getAux]
    rw [if_neg (show ¬(ht.occupied.getD idx false = true ∧
      (ht.table.getD idx ([], 0)).1 = k) from h idx)]
    exact ih _

theorem isHit_lt_size (ht : HashTable) (k : Key) (i : Nat)
    (hlo : ht.occupied.length = ht.size) (h : isHit ht k i) : i < ht.size :=
  hlo ▸ lt_length_of_getD_true _ _ h.1

theorem get_def (hashFn : Key → Nat) (ht : HashTable) (k : Key) :
    get hashFn ht k = getAux ht k (homeIndex hashFn k ht.size) ht.size := rfl

theorem remove_def (hashFn : Key → Nat) (ht : HashTable) (k : Key) :
    remove hashFn ht k = removeAux k ht (homeIndex hashFn k ht.size) ht.size := rfl

theorem get_ok_iff (hashFn : Key → Nat) (ht : HashTable) (k : Key) (v : Int)
    (hlt : ht.table.length = ht.size) (hlo : ht.occupied.length = ht.size)
    (hpos : 0 < ht.size)
    (hnd : ((entriesZ ht.table ht.occupied).map Prod.fst).Nodup) :
    get hashFn ht k = .ok v ↔ (k, v) ∈ entriesZ ht.table ht.occupied := by
  have hlen : ht.table.length = ht.occupied.length := hlt.trans hlo.symm
  constructor
  · intro h
    obtain ⟨i, hit, hv⟩ := getAux_ok_imp ht k _ _ _ h
    have hil : i < ht.size := isHit_lt_size ht k i hlo hit
    refine (mem_entriesZ_iff ht.occupied ht.table hlen _).mpr
      ⟨i, hlo ▸ hil, hit.1, ?_⟩
    have : ht.table.getD i ([], 0) = ((ht.table.getD i ([], 0)).1,
        (ht.table.getD i ([], 0)).2) := rfl
    rw [this, hit.2, hv]
  · intro h
    obtain ⟨i, hi, ho, he⟩ := (mem_entriesZ_iff ht.occupied ht.table hlen _).mp h
    have hit : isHit ht k i := ⟨ho, by rw [he]⟩
    have huniq : ∀ j, isHit ht k j → j = i := fun j hj =>
      hit_unique_aux ht.occupied ht.table hlen hnd j i k hj.1 hit.1 hj.2 hit.2
    have hil : i < ht.size := hlo ▸ hi
    have hhome : homeIndex hashFn k ht.size < ht.size := Nat.mod_lt _ hpos
    have hval : (ht.table.getD i ([], 0)).2 = v := by rw [he]
    rw [get_def, getAux_ok_of_hit ht k i huniq hit ht.size _ hhome
      (exists_probe_offset ht.size i _ hpos hil hhome), hval]

theorem get_err_iff (hashFn : Key → Nat) (ht : HashTable) (k : Key)
    (hlt : ht.table.length = ht.size) (hlo : ht.occupied.length = ht.size)
    (hpos : 0 < ht.size)
    (hnd : ((entriesZ ht.table ht.occupied).map Prod.fst).Nodup) :
    get hashFn ht k = .error .keyNotFound ↔ ∀ j, ¬ isHit ht k j := by
  constructor
  · intro h j hj
    have hjl : j < ht.size := isHit_lt_size ht k j hlo hj
    have huniq : ∀ j', isHit ht k j' → j' = j := fun j' hj' =>
      hit_unique_aux ht.occupied ht.table (hlt.trans hlo.symm) hnd j' j k
        hj'.1 hj.1 hj'.2 hj.2
    have hhome : homeIndex hashFn k ht.size < ht.size := Nat.mod_lt _ hpos
    have := getAux_ok_of_hit ht k j huniq hj ht.size _ hhome
      (exists_probe_offset ht.size j _ hpos hjl hhome)
    rw [get_def, this] at h
    exact Except.noConfusion h
  · intro h
    rw [get_def, getAux_err_of_no_hit ht k h]

theorem removeAux_ok_of_hit (ht : HashTable) (k : Key) (i : Nat)
    (huniq : ∀ j, isHit ht k j → j = i) (hi : isHit ht k i) :
    ∀ fuel idx, idx < ht.size → (∃ t, t < fuel ∧ (idx + t) % ht.size = i) →
      removeAux k ht idx fuel = .ok { ht with
        occupied := ht.occupied.set i false,
        table := ht.table.set i ([], 0),
        elements_count := ht.elements_count - 1,
        first_index := if (i : Int) = ht.first_index then -1 else ht.first_index,
        last_index := if (i : Int) = ht.last_index then -1 else ht.last_index } := by
  intro fuel
  induction fuel with
  | zero =>
    rintro idx _ ⟨t, ht0, _⟩
    omega
  | succ n ih =>
    rintro idx hidx ⟨t, htl, hteq⟩
    by_cases hc : ht.occupied.getD idx false = true ∧ (ht.table.getD idx ([], 0)).1 = k
    · have hii : idx = i := huniq idx hc
      subst hii
      simp only [removeAux]
      rw [if_pos hc]
    · have ht0 : t ≠ 0 := by
        rintro rfl
        rw [Nat.add_zero, Nat.mod_eq_of_lt hidx] at hteq
        exact hc (hteq ▸ hi)
      obtain ⟨t', rfl⟩ : ∃ t', t = t' + 1 := ⟨t - 1, by omega⟩
      have hpos : 0 < ht.size := by omega
      have hstep : ((idx + 1) % ht.size + t') % ht.size = i := by
        rw [Nat.mod_add_mod]
        have harr : idx + 1 + t' = idx + (t' + 1) := by omega
        rw [harr]
        exact hteq
      simp only [removeAux]
      rw [if_neg hc]
      exact ih ((idx + 1) % ht.size) (Nat.mod_lt _ hpos) ⟨t', by omega, hstep⟩

theorem insertAux_overwrite (k : Key) (v : Int) (ht : HashTable) :
    ∀ t0 idx fuel i, t0 < fuel → idx < ht.size → (idx + t0) % ht.size = i →
      (∀ t, t < t0 → ht.occupied.getD ((idx + t) % ht.size) false = true ∧
        (ht.table.getD ((idx + t) % ht.size) ([], 0)).1 ≠ k) →
      isHit ht k i →
      insertAux k v ht idx fuel =
        .ok { ht with table := ht.table.set i ((ht.table.getD i ([], 0)).1, v) } := by
  intro t0
  induction t0 with
  | zero =>
    intro idx fuel i hf hidx heq _ hi
    rw [Nat.add_zero, Nat.mod_eq_of_lt hidx] at heq
    subst heq
    obtain ⟨f', rfl⟩ : ∃ f', fuel = f' + 1 := ⟨fuel - 1, by omega⟩
    simp only [insertAux]
    rw [if_pos hi.1, if_pos hi.2]
  | succ t0' ih =>
    intro idx fuel i hf hidx heq hpre hi
    obtain ⟨f', rfl⟩ : ∃ f', fuel = f' + 1 := ⟨fuel - 1, by omega⟩
    have h0 := hpre 0 (by omega)
    rw [Nat.add_zero, Nat.mod_eq_of_lt hidx] at h0
    have hpos : 0 < ht.size := by omega
    simp only [insertAux]
    rw [if_pos h0.1, if_neg h0.2]
    refine ih ((idx + 1) % ht.size) f' i (by omega) (Nat.mod_lt _ hpos) ?_ ?_ hi
    · rw [Nat.mod_add_mod]
      have harr : idx + 1 + t0' = idx + (t0' + 1) := by omega
      rw [harr]
      exact heq
    · intro t htt
      have := hpre (t + 1) (by omega)
      rw [Nat.mod_add_mod]
      have harr : idx + 1 + t = idx + (t + 1) := by omega
      rw [harr]
      exact this

theorem insertAux_place (k : Key) (v : Int) (ht : HashTable) :
    ∀ t0 idx fuel i, t0 < fuel → idx < ht.size → (idx + t0) % ht.size = i →
      (∀ t, t < t0 → ht.occupied.getD ((idx + t) % ht.size) false = true ∧
        (ht.table.getD ((idx + t) % ht.size) ([], 0)).1 ≠ k) →
      ht.occupied.getD i false = false →
      insertAux k v ht idx fuel = .ok { ht with
        table := ht.table.set i (k, v),
        occupied := ht.occupied.set i true,
        elements_count := ht.elements_count + 1,
        first_index := if ht.first_index = -1 then (i : Int) else ht.first_index,
        last_index := (i : Int) } := by
  intro t0
  induction t0 with
  | zero =>
    intro idx fuel i hf hidx heq _ hemp
    rw [Nat.add_zero, Nat.mod_eq_of_lt hidx] at heq
    subst heq
    obtain ⟨f', rfl⟩ : ∃ f', fuel = f' + 1 := ⟨fuel - 1, by omega⟩
    simp only [insertAux]
    rw [if_neg (show ¬ ht.occupied.getD idx false = true from by
      rw [hemp]; simp)]
  | succ t0' ih =>
    intro idx fuel i hf hidx heq hpre hemp
    obtain ⟨f', rfl⟩ : ∃ f', fuel = f' + 1 := ⟨fuel - 1, by omega⟩
    have h0 := hpre 0 (by omega)
    rw [Nat.add_zero, Nat.mod_eq_of_lt hidx] at h0
    have hpos : 0 < ht.size := by omega
    simp only [insertAux]
    rw [if_pos h0.1, if_neg h0.2]
    refine ih ((idx + 1) % ht.size) f' i (by omega) (Nat.mod_lt _ hpos) ?_ ?_ hemp
    · rw [Nat.mod_add_mod]
      have harr : idx + 1 + t0' = idx + (t0' + 1) := by omega
      rw [harr]
      exact heq
    · intro t htt
      have := hpre (t + 1) (by omega)
      rw [Nat.mod_add_mod]
      have harr : idx + 1 + t = idx + (t + 1) := by omega
      rw [harr]
      exact this

theorem linear_probe_some_spec (occ : List Bool) (size : Nat) :
    ∀ fuel idx j, idx < size → linear_probe occ size idx fuel = some j →
      occ.getD j false = false ∧ j < size := by
  intro fuel
  induction fuel with
  | zero => intro idx j _ h; simp [linear_probe] at h
  | succ n ih =>
    intro idx j hidx h
    by_cases hc : occ.getD idx false = true
    · simp only [linear_probe] at h
      rw [if_pos hc] at h
      have hpos : 0 < size := by omega
      exact ih _ _ (Nat.mod_lt _ hpos) h
    · simp only [linear_probe] at h
      rw [if_neg hc] at h
      have hb : occ.getD idx false = false := by
        cases hx : occ.getD idx false
        · rfl
        · exact absurd hx hc
      injection h with h
      subst h
      exact ⟨hb, hidx⟩

theorem linear_probe_finds (occ : List Bool) (size : Nat) :
    ∀ fuel idx, idx < size →
      (∃ t, t < fuel ∧ occ.getD ((idx + t) % size) false = false) →
      ∃ j, linear_probe occ size idx fuel = some j := by
  intro fuel
  induction fuel with
  | zero =>
    rintro idx _ ⟨t, ht0, _⟩
    omega
  | succ n ih =>
    rintro idx hidx ⟨t, htl, htv⟩
    by_cases hc : occ.getD idx false = true
    · have ht0 : t ≠ 0 := by
        rintro rfl
        rw [Nat.add_zero, Nat.mod_eq_of_lt hidx] at htv
        rw [hc] at htv
        exact Bool.noConfusion htv
      obtain ⟨t', rfl⟩ : ∃ t', t = t' + 1 := ⟨t - 1, by omega⟩
      have hpos : 0 < size := by omega
      have hstep : occ.getD (((idx + 1) % size + t') % size) false = false := by
        rw [Nat.mod_add_mod]
        have harr : idx + 1 + t' = idx + (t' + 1) := by omega
        rw [harr]
        exact htv
      obtain ⟨j, hj⟩ := ih ((idx + 1) % size) (Nat.mod_lt _ hpos) ⟨t', by omega, hstep⟩
      refine ⟨j, ?_⟩
      simp only [linear_probe]
      rw [if_pos hc]
      exact hj
    · refine ⟨idx, ?_⟩
      simp only [linear_probe]
      rw [if_neg hc]

theorem rehashAux_master (hashFn : Key → Nat) (ht : HashTable) (N : Nat)
    (hN : ht.size < N) :
    ∀ (idxs : List Nat) (ntab : List (Key × Int)) (nocc : List Bool) (nfi nli : Int),
      ntab.length = N → nocc.length = N →
      nocc.count true + (idxs.filterMap (fun i =>
        if ht.occupied.getD i false then some (ht.table.getD i ([], 0))
        else none)).length ≤ ht.size →
      ∃ ntab2 nocc2 nfi2 nli2,
        rehashAux hashFn ht N idxs ntab nocc nfi nli =
          some (ntab2, nocc2, nfi2, nli2) ∧
        ntab2.length = N ∧ nocc2.length = N ∧
        (entriesZ ntab2 nocc2).Perm (entriesZ ntab nocc ++ idxs.filterMap (fun i =>
          if ht.occupied.getD i false then some (ht.table.getD i ([], 0))
          else none)) ∧
        nocc2.count true = nocc.count true + (idxs.filterMap (fun i =>
          if ht.occupied.getD i false then some (ht.table.getD i ([], 0))
          else none)).length := by
  intro idxs
  induction idxs with
  | nil =>
    intro ntab nocc nfi nli hlt hlo _
    exact ⟨ntab, nocc, nfi, nli, rfl, hlt, hlo, by simp, by simp⟩
  | cons i rest ih =>
    intro ntab nocc nfi nli hlt hlo hroom
    by_cases hocc : ht.occupied.getD i false = true
    · have hNpos : 0 < N := by omega
      have hfm : (List.filterMap (fun i =>
          if ht.occupied.getD i false then some (ht.table.getD i ([], 0))
          else none) (i :: rest)) = ht.table.getD i ([], 0) :: (rest.filterMap (fun i =>
          if ht.occupied.getD i false then some (ht.table.getD i ([], 0))
          else none)) := by
        rw [List.filterMap_cons, if_pos hocc]
      rw [hfm] at hroom
      simp only [List.length_cons] at hroom
      have hcnt : nocc.count true < N := by
        have hle : nocc.count true + 1 ≤ ht.size := by omega
        omega
      obtain ⟨j0, hj0l, hj0v⟩ := exists_false_of_count_lt nocc (by omega)
      have hhome : homeIndex hashFn (ht.table.getD i ([], 0)).1 N < N :=
        Nat.mod_lt _ hNpos
      have hj0N : j0 < N := hlo ▸ hj0l
      obtain ⟨t, htl, hteq⟩ := exists_probe_offset N j0 _ hNpos hj0N hhome
      obtain ⟨j, hj⟩ := linear_probe_finds nocc N N _ hhome
        ⟨t, by omega, by rw [hteq]; exact hj0v⟩
      obtain ⟨hjv, hjN⟩ := linear_probe_some_spec nocc N N _ j hhome hj
      have hjlen : j < nocc.length := hlo ▸ hjN
      have hstep : rehashAux hashFn ht N (i :: rest) ntab nocc nfi nli =
          rehashAux hashFn ht N rest (ntab.set j (ht.table.getD i ([], 0)))
            (nocc.set j true)
            (if (i : Int) = ht.first_index then (j : Int) else nfi) (j : Int) := by
        simp only [rehashAux]
        rw [if_pos hocc, hj]
      have hperm := entriesZ_set_perm j ntab nocc (hlt.trans hlo.symm) hjlen hjv
        (ht.table.getD i ([], 0))
      have hcnt2 : (nocc.set j true).count true = nocc.count true + 1 :=
        count_set_true nocc j hjlen hjv
      obtain ⟨ntab2, nocc2, nfi2, nli2, hrec, hl2, hl3, hp2, hc2⟩ :=
        ih (ntab.set j (ht.table.getD i ([], 0))) (nocc.set j true)
          (if (i : Int) = ht.first_index then (j : Int) else nfi) (j : Int)
          (by simpa using hlt) (by simpa using hlo)
          (by rw [hcnt2]; omega)
      refine ⟨ntab2, nocc2, nfi2, nli2, hstep.trans hrec, hl2, hl3, ?_, ?_⟩
      · rw [hfm]
        refine hp2.trans ?_
        refine ((hperm.append_right _).trans ?_)
        exact (List.perm_middle).symm
      · rw [hfm]
        simp only [List.length_cons]
        rw [hc2, hcnt2]
        omega
    · have hfm : (List.filterMap (fun i =>
          if ht.occupied.getD i false then some (ht.table.getD i ([], 0))
          else none) (i :: rest)) = rest.filterMap (fun i =>
          if ht.occupied.getD i false then some (ht.table.getD i ([], 0))
          else none) := by
        rw [List.filterMap_cons, if_neg hocc]
      have hstep : rehashAux hashFn ht N (i :: rest) ntab nocc nfi nli =
          rehashAux hashFn ht N rest ntab nocc nfi nli := by
        simp only [rehashAux]
        rw [if_neg hocc]
      rw [hfm] at hroom ⊢
      obtain ⟨ntab2, nocc2, nfi2, nli2, hrec, hl2, hl3, hp2, hc2⟩ :=
        ih ntab nocc nfi nli hlt hlo hroom
      exact ⟨ntab2, nocc2, nfi2, nli2, hstep.trans hrec, hl2, hl3, hp2, hc2⟩

theorem filterMap_range'_entriesZ (tab : List (Key × Int)) (occ : List Bool)
    (h : tab.length = occ.length) :
    ∀ n s, s + n = occ.length →
      (List.range' s n).filterMap (fun i =>
        if occ.getD i false then some (tab.getD i ([], 0)) else none) =
      entriesZ (tab.drop s) (occ.drop s) := by
  intro n
  induction n with
  | zero =>
    intro s hs
    have hdo : occ.drop s = [] := by
      apply List.drop_eq_nil_of_le
      omega
    simp [hdo, entriesZ]
  | succ n ih =>
    intro s hs
    have hso : s < occ.length := by omega
    have hst : s < tab.length := by omega
    rw [List.range'_succ, List.filterMap_cons,
      List.drop_eq_getElem_cons hso, List.drop_eq_getElem_cons hst]
    have hgo : occ.getD s false = occ[s] := getD_lt _ _ _ hso
    have hgt : tab.getD s ([], 0) = tab[s] := getD_lt _ _ _ hst
    cases hb : occ[s] with
    | true =>
      rw [hgo, hb, if_pos rfl]
      simp only [entriesZ]
      rw [ih (s + 1) (by omega), hgt]
    | false =>
      rw [hgo, hb]
      simp only [Bool.false_eq_true, if_false]
      simp only [entriesZ]
      rw [ih (s + 1) (by omega)]

theorem filterMap_range_entriesZ (tab : List (Key × Int)) (occ : List Bool)
    (h : tab.length = occ.length) :
    (List.range occ.length).filterMap (fun i =>
      if occ.getD i false then some (tab.getD i ([], 0)) else none) =
    entriesZ tab occ := by
  have := filterMap_range'_entriesZ tab occ h occ.length 0 (by omega)
  rw [List.range_eq_range']
  simpa using this

theorem resize_spec (hashFn : Key → Nat) (ht : HashTable)
    (hlt : ht.table.length = ht.size) (hlo : ht.occupied.length = ht.size) :
    ∃ ht2, resize hashFn ht = some ht2 ∧ ht2.size = ht.size + 2000 ∧
      ht2.elements_count = ht.elements_count ∧
      ht2.table.length = ht2.size ∧ ht2.occupied.length = ht2.size ∧
      (entriesZ ht2.table ht2.occupied).Perm (entriesZ ht.table ht.occupied) ∧
      ht2.occupied.count true = ht.occupied.count true := by
  have hlen : ht.table.length = ht.occupied.length := hlt.trans hlo.symm
  have hfr : (List.range ht.size).filterMap (fun i =>
      if ht.occupied.getD i false then some (ht.table.getD i ([], 0)) else none) =
      entriesZ ht.table ht.occupied := by
    rw [← hlo]
    exact filterMap_range_entriesZ ht.table ht.occupied hlen
  have hcount : (entriesZ ht.table ht.occupied).length = ht.occupied.count true :=
    entriesZ_length ht.occupied ht.table hlen
  have hroom : (List.replicate (ht.size + 2000) false).count true +
      ((List.range ht.size).filterMap (fun i =>
        if ht.occupied.getD i false then some (ht.table.getD i ([], 0))
        else none)).length ≤ ht.size := by
    have hrep : (List.replicate (ht.size + 2000) false).count true = 0 := by
      rw [List.count_replicate]
      simp
    rw [hfr, hcount, hrep]
    have hcl : ht.occupied.count true ≤ ht.occupied.length :=
      List.count_le_length _ _
    omega
  obtain ⟨ntab2, nocc2, nfi2, nli2, hrun, hl2, hl3, hperm, hcnt⟩ :=
    rehashAux_master hashFn ht (ht.size + 2000) (by omega) (List.range ht.size)
      (List.replicate (ht.size + 2000) ([], 0))
      (List.replicate (ht.size + 2000) false) (-1) (-1)
      (by simp) (by simp) hroom
  refine ⟨⟨ntab2, nocc2, nfi2, nli2, ht.size + 2000, ht.elements_count⟩, ?_,
    rfl, rfl, hl2, hl3, ?_, ?_⟩
  · simp only [resize]
    rw [hrun]
  · have hez : entriesZ (List.replicate (ht.size + 2000) ([], 0))
        (List.replicate (ht.size + 2000) false) = [] := by
      have : ∀ m (tb : List (Key × Int)), entriesZ tb (List.replicate m false) = [] := by
        intro m
        induction m with
        | zero => intro tb; cases tb <;> simp [entriesZ]
        | succ m ihm =>
          intro tb
          cases tb with
          | nil => simp [entriesZ]
          | cons q tbt => simpa [List.replicate_succ, entriesZ] using ihm tbt
      exact this _ _
    have := hperm
    rw [hez, hfr] at this
    simpa using this
  · rw [hcnt, hfr, hcount]
    simp [List.count_replicate]

theorem insertAux_ok_size (k : Key) (v : Int) (ht : HashTable) :
    ∀ fuel idx ht', insertAux k v ht idx fuel = .ok ht' → ht'.size = ht.size := by
  intro fuel
  induction fuel with
  | zero => intro idx ht' h; simp [insertAux] at h
  | succ n ih =>
    intro idx ht' h
    by_cases hc : ht.occupied.getD idx false = true
    · by_cases hk : (ht.table.getD idx ([], 0)).1 = k
      · simp only [insertAux] at h
        rw [if_pos hc, if_pos hk] at h
        injection h with h
        rw [← h]
      · simp only [insertAux] at h
        rw [if_pos hc, if_neg hk] at h
        exact ih _ _ h
    · simp only [insertAux] at h
      rw [if_neg hc] at h
      injection h with h
      rw [← h]

theorem resize_preserves_get (hashFn : Key → Nat) (ht : HashTable) (hwf : WF ht) :
    ∃ ht2, resize hashFn ht = some ht2 ∧ ht2.size = ht.size + 2000 ∧
      ht2.elements_count = ht.elements_count ∧ WF ht2 ∧
      ∀ k v, get hashFn ht k = .ok v → get hashFn ht2 k = .ok v := by
  obtain ⟨hlt, hlo, hpos, hnd⟩ := hwf
  obtain ⟨ht2, hrz, hsz, hcnt, hl2, hl3, hperm, _⟩ := resize_spec hashFn ht hlt hlo
  have hnd2 : ((entriesZ ht2.table ht2.occupied).map Prod.fst).Nodup :=
    ((hperm.map Prod.fst).nodup_iff).mpr hnd
  have hpos2 : 0 < ht2.size := by omega
  refine ⟨ht2, hrz, hsz, hcnt, ⟨hl2, hl3, hpos2, hnd2⟩, ?_⟩
  intro k v hget
  have hmem : (k, v) ∈ entriesZ ht.table ht.occupied :=
    (get_ok_iff hashFn ht k v hlt hlo hpos hnd).mp hget
  exact (get_ok_iff hashFn ht2 k v hl2 hl3 hpos2 hnd2).mpr (hperm.mem_iff.mpr hmem)

theorem insert_def (hashFn : Key → Nat) (ht : HashTable) (k : Key) (v : Int) :
    insert hashFn ht k v =
      if ht.elements_count = (ht.size : Int) then
        match resize hashFn ht with
        | none => .error .overflow
        | some ht2 => insertAux k v ht2 (homeIndex hashFn k ht2.size) ht2.size
      else insertAux k v ht (homeIndex hashFn k ht.size) ht.size := rfl

theorem insertAux_sound (k : Key) (v : Int) (ht : HashTable) (hs : Sound ht) :
    ∀ fuel idx ht', idx < ht.size → insertAux k v ht idx fuel = .ok ht' →
      Sound ht' := by
  obtain ⟨hlt, hlo, hcnt⟩ := hs
  intro fuel
  induction fuel with
  | zero => intro idx ht' _ h; simp [insertAux] at h
  | succ n ih =>
    intro idx ht' hidx h
    by_cases hc : ht.occupied.getD idx false = true
    · by_cases hk : (ht.table.getD idx ([], 0)).1 = k
      · simp only [insertAux] at h
        rw [if_pos hc, if_pos hk] at h
        injection h with h
        subst h
        exact ⟨by simpa using hlt, hlo, hcnt⟩
      · simp only [insertAux] at h
        rw [if_pos hc, if_neg hk] at h
        have hpos : 0 < ht.size := by omega
        exact ih ((idx + 1) % ht.size) ht' (Nat.mod_lt _ hpos) h
    · simp only [insertAux] at h
      rw [if_neg hc] at h
      injection h with h
      subst h
      have hb : ht.occupied.getD idx false = false := by
        cases hx : ht.occupied.getD idx false
        · rfl
        · exact absurd hx hc
      have hil : idx < ht.occupied.length := hlo ▸ hidx
      refine ⟨by simpa using hlt, by simpa using hlo, ?_⟩
      simp only
      rw [count_set_true ht.occupied idx hil hb, hcnt]
      push_cast
      ring

theorem removeAux_sound (k : Key) (ht : HashTable) (hs : Sound ht) :
    ∀ fuel idx ht', idx < ht.size → removeAux k ht idx fuel = .ok ht' →
      Sound ht' := by
  obtain ⟨hlt, hlo, hcnt⟩ := hs
  intro fuel
  induction fuel with
  | zero => intro idx ht' _ h; simp [removeAux] at h
  | succ n ih =>
    intro idx ht' hidx h
    by_cases hc : ht.occupied.getD idx false = true ∧ (ht.table.getD idx ([], 0)).1 = k
    · simp only [removeAux] at h
      rw [if_pos hc] at h
      injection h with h
      subst h
      have hil : idx < ht.occupied.length := hlo ▸ hidx
      refine ⟨by simpa using hlt, by simpa using hlo, ?_⟩
      simp only
      have hdec := count_set_false ht.occupied idx hil hc.1
      rw [hcnt]
      have hcast : ((ht.occupied.set idx false).count true : Int) + 1 =
          (ht.occupied.count true : Int) := by exact_mod_cast hdec
      omega
    · simp only [removeAux] at h
      rw [if_neg hc] at h
      have hpos : 0 < ht.size := by omega
      exact ih ((idx + 1) % ht.size) ht' (Nat.mod_lt _ hpos) h

theorem resize_sound (hashFn : Key → Nat) (ht ht' : HashTable) (hs : Sound ht)
    (h : resize hashFn ht = some ht') : Sound ht' := by
  obtain ⟨hlt, hlo, hcnt⟩ := hs
  obtain ⟨ht2, hrz, _, hec, hl2, hl3, _, hc2⟩ := resize_spec hashFn ht hlt hlo
  rw [h] at hrz
  injection hrz with hrz
  subst hrz
  exact ⟨hl2, hl3, by rw [hec, hcnt, hc2]⟩

theorem insert_sound (hashFn : Key → Nat) (ht ht' : HashTable) (hs : Sound ht)
    (k : Key) (v : Int) (h : insert hashFn ht k v = .ok ht') : Sound ht' := by
  by_cases hfull : ht.elements_count = (ht.size : Int)
  · rw [insert_def, if_pos hfull] at h
    obtain ⟨ht2, hrz, hsz, hec, hl2, hl3, _, hc2⟩ :=
      resize_spec hashFn ht hs.1 hs.2.1
    rw [hrz] at h
    have hs2 : Sound ht2 := ⟨hl2, hl3, by rw [hec, hs.2.2, hc2]⟩
    have hpos2 : 0 < ht2.size := by omega
    exact insertAux_sound k v ht2 hs2 ht2.size _ ht' (Nat.mod_lt _ hpos2) h
  · rw [insert_def, if_neg hfull] at h
    have hpos : 0 < ht.size := by
      rcases Nat.eq_zero_or_pos ht.size with h0 | h0
      · exfalso
        have hle : ht.occupied.count true ≤ ht.occupied.length :=
          List.count_le_length _ _
        rw [hs.2.1, h0] at hle
        have : ht.elements_count = 0 := by
          rw [hs.2.2]
          omega
        rw [this, h0] at hfull
        exact hfull (by simp)
      · exact h0
    exact insertAux_sound k v ht hs ht.size _ ht' (Nat.mod_lt _ hpos) h

theorem remove_sound (hashFn : Key → Nat) (ht ht' : HashTable) (hs : Sound ht)
    (k : Key) (h : remove hashFn ht k = .ok ht') : Sound ht' := by
  rcases Nat.eq_zero_or_pos ht.size with h0 | h0
  · rw [remove_def, h0] at h
    simp [removeAux] at h
  · rw [remove_def] at h
    exact removeAux_sound k ht hs ht.size _ ht' (Nat.mod_lt _ h0) h

theorem reach_sound (hashFn : Key → Nat) (ht : HashTable)
    (h : Reach hashFn ht) : Sound ht := by
  induction h with
  | init n =>
    refine ⟨by simp [HashTable.init], by simp [HashTable.init], ?_⟩
    simp only [HashTable.init]
    rw [List.count_replicate]
    simp
  | insert_ok _ hstep ih => exact insert_sound _ _ _ ih _ _ hstep
  | remove_ok _ hstep ih => exact remove_sound _ _ _ ih _ hstep
  | resize_ok _ hstep ih => exact resize_sound _ _ _ ih hstep

theorem readI32_writeI32 (n : Int) (rest : List Nat)
    (h1 : -2147483648 ≤ n) (h2 : n < 2147483648) :
    readI32 (writeI32 n ++ rest) = some (n, rest) := by
  have hnn : 0 ≤ n % 4294967296 := Int.emod_nonneg n (by norm_num)
  have hltm : n % 4294967296 < 4294967296 := Int.emod_lt_of_pos n (by norm_num)
  simp only [writeI32, readI32, List.cons_append, List.nil_append]
  have hmc : (((n % 4294967296).toNat : Int)) = n % 4294967296 :=
    Int.toNat_of_nonneg hnn
  set m := (n % 4294967296).toNat with hmdef
  have hm32 : m < 4294967296 := by omega
  have hX : m % 256 % 256 + 256 * (m / 256 % 256 % 256) +
      65536 * (m / 65536 % 256 % 256) + 16777216 * (m / 16777216 % 256 % 256) =
      m := by omega
  rw [hX]
  have hval : (if m < 2147483648 then (m : Int) else (m : Int) - 4294967296) =
      n := by
    split_ifs with hc
    · omega
    · omega
  rw [hval]

theorem readI32_none_iff (f : List Nat) : readI32 f = none ↔ f.length < 4 := by
  rcases f with _ | ⟨a, _ | ⟨b, _ | ⟨c, _ | ⟨d, f⟩⟩⟩⟩ <;> simp [readI32]

theorem readI32_some_of_len (f : List Nat) (h : 4 ≤ f.length) :
    ∃ v, readI32 f = some (v, f.drop 4) := by
  rcases f with _ | ⟨a, _ | ⟨b, _ | ⟨c, _ | ⟨d, f⟩⟩⟩⟩ <;> simp_all [readI32]

theorem readBytes_append (l rest : List Nat) :
    readBytes l.length (l ++ rest) = some (l, rest) := by
  rw [readBytes, if_pos (by simp)]
  rw [List.take_left, List.drop_left]

theorem readSlot_saveSlot (s : Key × Int) (b : Bool) (rest : List Nat)
    (hk : s.1.length ≤ 1000) (hv : Int32 s.2) :
    readSlot (saveSlot s b ++ rest) = some (((s.1, s.2), b), rest) := by
  have e1 : readI32 (saveSlot s b ++ rest) =
      some ((s.1.length : Int),
        s.1 ++ (writeI32 s.2 ++ ([if b then 1 else 0] ++ rest))) := by
    rw [saveSlot]
    simp only [List.append_assoc]
    exact readI32_writeI32 _ _ (by omega) (by omega)
  have e2 := readI32_writeI32 s.2 ((if b then 1 else 0) :: rest) hv.1 hv.2
  simp only [readSlot, e1, List.singleton_append]
  rw [if_neg (by omega)]
  simp only [Int.toNat_natCast, readBytes_append, e2, readByte]
  cases b <;> simp

theorem parseSlots_length_le : ∀ (n : Nat) (f : List Nat),
    (parseSlots f n).length ≤ n := by
  intro n
  induction n with
  | zero => intro f; simp [parseSlots]
  | succ n ih =>
    intro f
    rw [parseSlots]
    cases h : readSlot f with
    | none => simp
    | some v =>
      show (v.1 :: parseSlots v.2 n).length ≤ n + 1
      simp only [List.length_cons]
      exact Nat.succ_le_succ (ih v.2)

theorem parse_encodeSlots : ∀ (L : List ((Key × Int) × Bool)),
    (∀ sb ∈ L, sb.1.1.length ≤ 1000 ∧ Int32 sb.1.2) →
    parseSlots (encodeSlots L) L.length = L := by
  intro L
  induction L with
  | nil => intro _; simp [parseSlots]
  | cons sb L ih =>
    intro hb
    have hhd := hb sb (by simp)
    have henc : encodeSlots (sb :: L) = saveSlot sb.1 sb.2 ++ encodeSlots L := by
      simp [encodeSlots]
    rw [List.length_cons, parseSlots, henc,
      readSlot_saveSlot sb.1 sb.2 (encodeSlots L) hhd.1 hhd.2]
    have htl : ∀ x ∈ L, x.1.1.length ≤ 1000 ∧ Int32 x.1.2 := fun x hx =>
      hb x (by simp [hx])
    show sb :: parseSlots (encodeSlots L) L.length = sb :: L
    rw [ih htl]

theorem listResize_length {α} (l : List α) (n : Nat) (d : α) :
    (listResize l n d).length = n := by
  simp [listResize]
  omega

theorem loadSlots_spec : ∀ (n s : Nat) (f : List Nat)
    (tab : List (Key × Int)) (occ : List Bool),
    (loadSlots f tab occ (List.range' s n)).1.length = tab.length ∧
    (loadSlots f tab occ (List.range' s n)).2.length = occ.length ∧
    (∀ j, (j < s ∨ s + (parseSlots f n).length ≤ j) →
      (loadSlots f tab occ (List.range' s n)).1.getD j ([], 0) =
        tab.getD j ([], 0) ∧
      (loadSlots f tab occ (List.range' s n)).2.getD j false =
        occ.getD j false) ∧
    (∀ m, m < (parseSlots f n).length → s + m < tab.length →
      s + m < occ.length →
      (loadSlots f tab occ (List.range' s n)).1.getD (s + m) ([], 0) =
        ((parseSlots f n).getD m (([], 0), false)).1 ∧
      (loadSlots f tab occ (List.range' s n)).2.getD (s + m) false =
        ((parseSlots f n).getD m (([], 0), false)).2) := by
  intro n
  induction n with
  | zero =>
    intro s f tab occ
    refine ⟨rfl, rfl, fun j _ => ⟨rfl, rfl⟩, fun m hm _ _ => ?_⟩
    simp [parseSlots] at hm
  | succ n ih =>
    intro s f tab occ
    rw [List.range'_succ]
    cases hrs : readSlot f with
    | none =>
      have hload : loadSlots f tab occ (s :: List.range' (s + 1) n) = (tab, occ) := by
        rw [loadSlots, hrs]
      have hparse : parseSlots f (n + 1) = [] := by
        rw [parseSlots, hrs]
      refine ⟨by rw [hload], by rw [hload], fun j _ => ⟨by rw [hload], by rw [hload]⟩,
        fun m hm _ _ => ?_⟩
      rw [hparse] at hm
      simp at hm
    | some v =>
      obtain ⟨⟨⟨key, vv⟩, b⟩, f'⟩ := v
      have hload : loadSlots f tab occ (s :: List.range' (s + 1) n) =
          loadSlots f' (tab.set s (key, vv)) (occ.set s b) (List.range' (s + 1) n) := by
        rw [loadSlots, hrs]
      have hparse : parseSlots f (n + 1) = ((key, vv), b) :: parseSlots f' n := by
        rw [parseSlots, hrs]
      obtain ⟨ih1, ih2, ihu, ihf⟩ := ih (s + 1) f' (tab.set s (key, vv)) (occ.set s b)
      rw [hload, hparse]
      refine ⟨by rw [ih1]; simp, by rw [ih2]; simp, ?_, ?_⟩
      · intro j hj
        simp only [List.length_cons] at hj
        have hju : j < s + 1 ∨ (s + 1) + (parseSlots f' n).length ≤ j := by
          omega
        have hne : s ≠ j := by omega
        obtain ⟨hu1, hu2⟩ := ihu j hju
        rw [hu1, hu2]
        exact ⟨getD_set_ne tab hne _ _, getD_set_ne occ hne _ _⟩
      · intro m hm htb hob
        simp only [List.length_cons] at hm
        cases m with
        | zero =>
          simp only [Nat.add_zero] at htb hob ⊢
          obtain ⟨hu1, hu2⟩ := ihu s (by left; omega)
          simp only [List.getD_cons_zero]
          rw [hu1, hu2]
          exact ⟨getD_set_self tab s (key, vv) ([], 0) htb,
            getD_set_self occ s b false hob⟩
        | succ m' =>
          have harr : s + (m' + 1) = (s + 1) + m' := by omega
          rw [harr]
          have hrec := ihf m' (by omega) (by simpa [harr] using htb)
            (by simpa [harr] using hob)
          simpa [List.getD_cons_succ] using hrec

theorem slotPairs_length (ht : HashTable) : (slotPairs ht).length = ht.size := by
  simp [slotPairs]

theorem slotPairs_getD (ht : HashTable) (j : Nat) (hj : j < ht.size) :
    (slotPairs ht).getD j (([], 0), false) =
      (ht.table.getD j ([], 0), ht.occupied.getD j false) := by
  rw [slotPairs, getD_lt _ _ _ (by simpa using hj)]
  simp [hj]

theorem slotPairs_mem_bounds (ht : HashTable)
    (hslots : ∀ i, i < ht.size → (ht.table.getD i ([], 0)).1.length ≤ 1000 ∧
      Int32 (ht.table.getD i ([], 0)).2) :
    ∀ sb ∈ slotPairs ht, sb.1.1.length ≤ 1000 ∧ Int32 sb.1.2 := by
  intro sb hsb
  rw [slotPairs, List.mem_map] at hsb
  obtain ⟨i, hi, rfl⟩ := hsb
  rw [List.mem_range] at hi
  exact hslots i hi

/-- C1: saving any store (whose fields fit in 32-bit integers and whose keys
pass the loader's 1000-byte validation, i.e. no load-time truncation occurs)
and loading the file into a fresh store reproduces the same capacity, count,
first_index, last_index and per-slot contents — hence identical key→value
contents. -/
theorem save_load_roundtrip (ht : HashTable) (m : Nat)
    (hlt : ht.table.length = ht.size) (hlo : ht.occupied.length = ht.size)
    (hsz : (ht.size : Int) < 2147483648)
    (hec : Int32 ht.elements_count) (hfi : Int32 ht.first_index)
    (hli : Int32 ht.last_index)
    (hslots : ∀ i, i < ht.size → (ht.table.getD i ([], 0)).1.length ≤ 1000 ∧
      Int32 (ht.table.getD i ([], 0)).2) :
    load_from_file (some (save_to_file ht)) (HashTable.init m) =
      some (true, ht) := by
  have e1 : readI32 (save_to_file ht) = some ((ht.size : Int),
      writeI32 ht.elements_count ++ (writeI32 ht.first_index ++
        (writeI32 ht.last_index ++ encodeSlots (slotPairs ht)))) := by
    rw [save_to_file]
    simp only [List.append_assoc]
    exact readI32_writeI32 _ _ (by omega) (by omega)
  have e2 := readI32_writeI32 ht.elements_count
    (writeI32 ht.first_index ++ (writeI32 ht.last_index ++
      encodeSlots (slotPairs ht))) hec.1 hec.2
  have e3 := readI32_writeI32 ht.first_index
    (writeI32 ht.last_index ++ encodeSlots (slotPairs ht)) hfi.1 hfi.2
  have e4 := readI32_writeI32 ht.last_index (encodeSlots (slotPairs ht))
    hli.1 hli.2
  simp only [load_from_file, e1, e2, e3, e4]
  rw [if_neg (by omega : ¬ ((ht.size : Int) < 0))]
  simp only [Int.toNat_natCast, HashTable.init, List.range_eq_range']
  have hparse : parseSlots (encodeSlots (slotPairs ht)) ht.size = slotPairs ht := by
    have hp := parse_encodeSlots (slotPairs ht) (slotPairs_mem_bounds ht hslots)
    rwa [slotPairs_length] at hp
  obtain ⟨hL1, hL2, hLu, hLf⟩ := loadSlots_spec ht.size 0
    (encodeSlots (slotPairs ht))
    (listResize (List.replicate m ([], 0)) ht.size ([], 0))
    (listResize (List.replicate m false) ht.size false)
  have htabeq : (loadSlots (encodeSlots (slotPairs ht))
      (listResize (List.replicate m ([], 0)) ht.size ([], 0))
      (listResize (List.replicate m false) ht.size false)
      (List.range' 0 ht.size)).1 = ht.table := by
    apply List.ext_getElem
    · rw [hL1, listResize_length, hlt]
    · intro i h1 h2
      have hi : i < ht.size := by rwa [hL1, listResize_length] at h1
      have hf := hLf i (by rw [hparse, slotPairs_length]; exact hi)
        (by rw [listResize_length]; omega) (by rw [listResize_length]; omega)
      rw [Nat.zero_add] at hf
      rw [← getD_lt _ _ ([], 0) h1, ← getD_lt _ _ ([], 0) h2, hf.1, hparse,
        slotPairs_getD ht i hi]
  have hocceq : (loadSlots (encodeSlots (slotPairs ht))
      (listResize (List.replicate m ([], 0)) ht.size ([], 0))
      (listResize (List.replicate m false) ht.size false)
      (List.range' 0 ht.size)).2 = ht.occupied := by
    apply List.ext_getElem
    · rw [hL2, listResize_length, hlo]
    · intro i h1 h2
      have hi : i < ht.size := by rwa [hL2, listResize_length] at h1
      have hf := hLf i (by rw [hparse, slotPairs_length]; exact hi)
        (by rw [listResize_length]; omega) (by rw [listResize_length]; omega)
      rw [Nat.zero_add] at hf
      rw [← getD_lt _ _ false h1, ← getD_lt _ _ false h2, hf.2, hparse,
        slotPairs_getD ht i hi]
  rw [htabeq, hocceq]

theorem readI32_rest (f : List Nat) (v : Int) (rest : List Nat)
    (h : readI32 f = some (v, rest)) : rest = f.drop 4 ∧ 4 ≤ f.length := by
  rcases f with _ | ⟨a, _ | ⟨b, _ | ⟨c, _ | ⟨d, f⟩⟩⟩⟩ <;> simp_all [readI32]

/-- C2 counterexample: a 16-byte file whose capacity field decodes to `-1`.
All four header fields read successfully, yet `load_from_file` does not
return `true`: `table.resize(-1)` converts `-1` to a huge `size_t` and
`std::vector::resize` throws (modelled by `none`), so the claim "once the
header has been read, load returns true" fails at this input. -/
theorem load_negative_capacity_throws :
    readHeader [255, 255, 255, 255, 0, 0, 0, 0, 0, 0, 0, 0, 0, 0, 0, 0] =
      some ((-1, 0, 0, 0), []) ∧
    load_from_file (some [255, 255, 255, 255, 0, 0, 0, 0, 0, 0, 0, 0, 0, 0, 0, 0])
      (HashTable.init 1) = none := by
  constructor
  · decide
  · decide

/-- C2 (amended): `load_from_file` returns `false` when the file cannot be
opened or any of the four header fields cannot be read; once the header has
been read *and the capacity field is non-negative* (a negative capacity makes
the internal `vector::resize` throw instead), it returns `true` even when a
per-slot read fails short or a `key_length` outside `0..1000` is
encountered: loading stops early, the successfully parsed prefix of slots is
in the store, and every other slot is exactly as the post-resize arrays had
it. -/
theorem load_contract :
    (∀ ht, load_from_file none ht = some (false, ht)) ∧
    (∀ f ht, f.length < 16 →
      ∃ ht2, load_from_file (some f) ht = some (false, ht2)) ∧
    (∀ f ht sz cnt fi li f4,
      readHeader f = some ((sz, cnt, fi, li), f4) → 0 ≤ sz →
      ∃ tabR occR,
        load_from_file (some f) ht = some (true, ⟨tabR, occR, fi, li, sz.toNat, cnt⟩) ∧
        (parseSlots f4 sz.toNat).length ≤ sz.toNat ∧
        (∀ j, j < (parseSlots f4 sz.toNat).length →
          tabR.getD j ([], 0) = ((parseSlots f4 sz.toNat).getD j (([], 0), false)).1 ∧
          occR.getD j false = ((parseSlots f4 sz.toNat).getD j (([], 0), false)).2) ∧
        (∀ j, (parseSlots f4 sz.toNat).length ≤ j →
          tabR.getD j ([], 0) = (listResize ht.table sz.toNat ([], 0)).getD j ([], 0) ∧
          occR.getD j false = (listResize ht.occupied sz.toNat false).getD j false)) := by
  refine ⟨fun ht => rfl, ?_, ?_⟩
  · intro f ht hlen
    cases h1 : readI32 f with
    | none => exact ⟨ht, by simp [load_from_file, h1]⟩
    | some p1 =>
      obtain ⟨szI, f1⟩ := p1
      obtain ⟨hf1, hl1⟩ := readI32_rest f szI f1 h1
      have hlen1 : f1.length < 12 := by
        subst hf1
        simp
        omega
      cases h2 : readI32 f1 with
      | none =>
        exact ⟨{ ht with size := szI.toNat }, by simp [load_from_file, h1, h2]⟩
      | some p2 =>
        obtain ⟨cnt, f2⟩ := p2
        obtain ⟨hf2, hl2⟩ := readI32_rest f1 cnt f2 h2
        have hlen2 : f2.length < 8 := by
          subst hf2
          simp
          omega
        cases h3 : readI32 f2 with
        | none =>
          exact ⟨{ ht with size := szI.toNat, elements_count := cnt },
            by simp [load_from_file, h1, h2, h3]⟩
        | some p3 =>
          obtain ⟨fi, f3⟩ := p3
          obtain ⟨hf3, hl3⟩ := readI32_rest f2 fi f3 h3
          have hlen3 : f3.length < 4 := by
            subst hf3
            simp
            omega
          cases h4 : readI32 f3 with
          | none =>
            refine ⟨{ ht with size := szI.toNat, elements_count := cnt, first_index := fi }, ?_⟩
            simp [load_from_file, h1, h2, h3, h4]
          | some p4 =>
            exfalso
            have hcontra := (readI32_none_iff f3).mpr hlen3
            rw [h4] at hcontra
            exact Option.noConfusion hcontra
  · intro f ht sz cnt fi li f4 hh hsz
    cases h1 : readI32 f with
    | none => simp [readHeader, h1] at hh
    | some p1 =>
      obtain ⟨szI, f1⟩ := p1
      cases h2 : readI32 f1 with
      | none => simp [readHeader, h1, h2] at hh
      | some p2 =>
        obtain ⟨cntI, f2⟩ := p2
        cases h3 : readI32 f2 with
        | none => simp [readHeader, h1, h2, h3] at hh
        | some p3 =>
          obtain ⟨fiI, f3⟩ := p3
          cases h4 : readI32 f3 with
          | none => simp [readHeader, h1, h2, h3, h4] at hh
          | some p4 =>
            obtain ⟨liI, f4I⟩ := p4
            simp only [readHeader, h1, h2, h3, h4, Option.some.injEq,
              Prod.mk.injEq] at hh
            obtain ⟨⟨hszI, hcntI, hfiI, hliI⟩, hf4I⟩ := hh
            rw [← hszI] at hsz
            rw [← hszI, ← hcntI, ← hfiI, ← hliI, ← hf4I]
            simp only [load_from_file, h1, h2, h3, h4]
            rw [if_neg (by omega : ¬ szI < 0)]
            simp only [List.range_eq_range']
            obtain ⟨hL1, hL2, hLu, hLf⟩ := loadSlots_spec szI.toNat 0 f4I
              (listResize ht.table szI.toNat ([], 0))
              (listResize ht.occupied szI.toNat false)
            refine ⟨_, _, rfl, parseSlots_length_le szI.toNat f4I, ?_, ?_⟩
            · intro j hj
              have hple := parseSlots_length_le szI.toNat f4I
              have hf := hLf j hj (by rw [listResize_length]; omega)
                (by rw [listResize_length]; omega)
              rw [Nat.zero_add] at hf
              exact hf
            · intro j hj
              exact hLu j (by omega)

theorem load_contract_witness :
    ∃ tabR occR,
      load_from_file (some [1, 0, 0, 0, 1, 0, 0, 0, 0, 0, 0, 0, 0, 0, 0, 0])
        (HashTable.init 1) =
        some (true, ⟨tabR, occR, 0, 0, (1 : Int).toNat, 1⟩) ∧
      (parseSlots [] (1 : Int).toNat).length ≤ (1 : Int).toNat ∧
      (∀ j, j < (parseSlots [] (1 : Int).toNat).length →
        tabR.getD j ([], 0) =
          ((parseSlots [] (1 : Int).toNat).getD j (([], 0), false)).1 ∧
        occR.getD j false =
          ((parseSlots [] (1 : Int).toNat).getD j (([], 0), false)).2) ∧
      (∀ j, (parseSlots [] (1 : Int).toNat).length ≤ j →
        tabR.getD j ([], 0) =
          (listResize (HashTable.init 1).table (1 : Int).toNat ([], 0)).getD j ([], 0) ∧
        occR.getD j false =
          (listResize (HashTable.init 1).occupied (1 : Int).toNat false).getD j false) :=
  load_contract.2.2 [1, 0, 0, 0, 1, 0, 0, 0, 0, 0, 0, 0, 0, 0, 0, 0]
    (HashTable.init 1) 1 1 0 0 [] (by decide) (by decide)

theorem resize_ok_fields (hashFn : Key → Nat) (ht ht2 : HashTable)
    (h : resize hashFn ht = some ht2) :
    ht2.size = ht.size + 2000 ∧ ht2.elements_count = ht.elements_count := by
  revert h
  simp only [resize]
  cases hrm : rehashAux hashFn ht (ht.size + 2000) (List.range ht.size)
      (List.replicate (ht.size + 2000) ([], 0))
      (List.replicate (ht.size + 2000) false) (-1) (-1) with
  | none => intro h; exact absurd h (by simp)
  | some q =>
    obtain ⟨a, b, c, d⟩ := q
    intro h
    injection h with h
    rw [← h]
    exact ⟨rfl, rfl⟩

/-- C3: growth is triggered exactly when `insert` runs with
`count == capacity` (otherwise the capacity is unchanged); the new capacity
is the old plus the fixed increment 2000; growth does not change
`elements_count`; and every key readable before growth reads to the same
value after growth (stated for well-formed stores). -/
theorem growth_policy :
    ∀ hashFn : Key → Nat,
    (∀ ht k v ht', ht.elements_count ≠ (ht.size : Int) →
      insert hashFn ht k v = .ok ht' → ht'.size = ht.size) ∧
    (∀ ht k v ht', ht.elements_count = (ht.size : Int) →
      insert hashFn ht k v = .ok ht' → ht'.size = ht.size + 2000) ∧
    (∀ ht, WF ht → ∃ ht2, resize hashFn ht = some ht2 ∧
      ht2.size = ht.size + 2000 ∧ ht2.elements_count = ht.elements_count ∧
      ∀ k v, get hashFn ht k = .ok v → get hashFn ht2 k = .ok v) := by
  intro hashFn
  refine ⟨?_, ?_, ?_⟩
  · intro ht k v ht' hne h
    rw [insert_def, if_neg hne] at h
    exact insertAux_ok_size k v ht ht.size _ ht' h
  · intro ht k v ht' heq h
    rw [insert_def, if_pos heq] at h
    cases hres : resize hashFn ht with
    | none => rw [hres] at h; exact absurd h (by simp)
    | some ht2 =>
      rw [hres] at h
      have hsz := (resize_ok_fields hashFn ht ht2 hres).1
      have := insertAux_ok_size k v ht2 ht2.size _ ht' h
      omega
  · intro ht hwf
    obtain ⟨ht2, hrz, hsz, hec, _, hget⟩ := resize_preserves_get hashFn ht hwf
    exact ⟨ht2, hrz, hsz, hec, hget⟩

theorem growth_policy_witness :
    (⟨[([97], 5), ([], 0), ([], 0), ([], 0)], [true, false, false, false],
        0, 0, 4, 1⟩ : HashTable).size = (HashTable.init 4).size ∧
    ∃ ht2, resize hashZero (⟨[([97], 1)], [true], 0, 0, 1, 1⟩ : HashTable) =
        some ht2 ∧
      ht2.size = (⟨[([97], 1)], [true], 0, 0, 1, 1⟩ : HashTable).size + 2000 ∧
      ht2.elements_count =
        (⟨[([97], 1)], [true], 0, 0, 1, 1⟩ : HashTable).elements_count ∧
      ∀ k v, get hashZero (⟨[([97], 1)], [true], 0, 0, 1, 1⟩ : HashTable) k = .ok v →
        get hashZero ht2 k = .ok v := by
  constructor
  · exact (growth_policy hashZero).1 (HashTable.init 4) [97] 5
      ⟨[([97], 5), ([], 0), ([], 0), ([], 0)], [true, false, false, false],
        0, 0, 4, 1⟩ (by decide) (by decide)
  · exact (growth_policy hashZero).2.2 ⟨[([97], 1)], [true], 0, 0, 1, 1⟩
      ⟨rfl, rfl, by decide, by decide⟩

/-- C10: if some slot holds a key (occupied), `get` returns that slot's
value and `remove` clears exactly that slot — `first_index`/`last_index` are
reset to -1 when they pointed there, everything else is untouched — even
when empty slots lie on the probe path between the key's home index and the
slot: both loops examine up to `capacity` consecutive slots and skip empty
ones rather than stopping at the first empty slot.  (Stated for stores with
well-formed lengths and no duplicate occupied keys, which pins down "that
slot".) -/
theorem get_remove_skip_empty :
    ∀ (hashFn : Key → Nat) (ht : HashTable) (i : Nat),
      ht.table.length = ht.size → ht.occupied.length = ht.size →
      ((entriesZ ht.table ht.occupied).map Prod.fst).Nodup →
      i < ht.size → ht.occupied.getD i false = true →
      get hashFn ht ((ht.table.getD i ([], 0)).1) =
        .ok ((ht.table.getD i ([], 0)).2) ∧
      remove hashFn ht ((ht.table.getD i ([], 0)).1) = .ok { ht with
        occupied := ht.occupied.set i false,
        table := ht.table.set i ([], 0),
        elements_count := ht.elements_count - 1,
        first_index := if (i : Int) = ht.first_index then -1 else ht.first_index,
        last_index := if (i : Int) = ht.last_index then -1 else ht.last_index } := by
  intro hashFn ht i hlt hlo hnd hi hocc
  have hpos : 0 < ht.size := by omega
  have hit : isHit ht ((ht.table.getD i ([], 0)).1) i := ⟨hocc, rfl⟩
  have huniq : ∀ j, isHit ht ((ht.table.getD i ([], 0)).1) j → j = i := fun j hj =>
    hit_unique_aux ht.occupied ht.table (hlt.trans hlo.symm) hnd j i _
      hj.1 hit.1 hj.2 hit.2
  have hhome : homeIndex hashFn ((ht.table.getD i ([], 0)).1) ht.size < ht.size :=
    Nat.mod_lt _ hpos
  have hcov := exists_probe_offset ht.size i _ hpos hi hhome
  constructor
  · rw [get_def]
    exact getAux_ok_of_hit ht _ i huniq hit ht.size _ hhome hcov
  · rw [remove_def]
    exact removeAux_ok_of_hit ht _ i huniq hit ht.size _ hhome hcov

theorem get_remove_skip_empty_witness :
    get hashZero (⟨[([], 0), ([97], 7), ([], 0), ([], 0)],
        [false, true, false, false], -1, 1, 4, 1⟩ : HashTable)
      (((⟨[([], 0), ([97], 7), ([], 0), ([], 0)],
        [false, true, false, false], -1, 1, 4, 1⟩ : HashTable).table.getD 1
          ([], 0)).1) =
      .ok (((⟨[([], 0), ([97], 7), ([], 0), ([], 0)],
        [false, true, false, false], -1, 1, 4, 1⟩ : HashTable).table.getD 1
          ([], 0)).2) ∧
    remove hashZero (⟨[([], 0), ([97], 7), ([], 0), ([], 0)],
        [false, true, false, false], -1, 1, 4, 1⟩ : HashTable)
      (((⟨[([], 0), ([97], 7), ([], 0), ([], 0)],
        [false, true, false, false], -1, 1, 4, 1⟩ : HashTable).table.getD 1
          ([], 0)).1) =
      .ok { (⟨[([], 0), ([97], 7), ([], 0), ([], 0)],
          [false, true, false, false], -1, 1, 4, 1⟩ : HashTable) with
        occupied := (⟨[([], 0), ([97], 7), ([], 0), ([], 0)],
          [false, true, false, false], -1, 1, 4, 1⟩ : HashTable).occupied.set 1 false,
        table := (⟨[([], 0), ([97], 7), ([], 0), ([], 0)],
          [false, true, false, false], -1, 1, 4, 1⟩ : HashTable).table.set 1 ([], 0),
        elements_count := (⟨[([], 0), ([97], 7), ([], 0), ([], 0)],
          [false, true, false, false], -1, 1, 4, 1⟩ : HashTable).elements_count - 1,
        first_index := if ((1 : Nat) : Int) =
            (⟨[([], 0), ([97], 7), ([], 0), ([], 0)],
              [false, true, false, false], -1, 1, 4, 1⟩ : HashTable).first_index
          then -1 else (⟨[([], 0), ([97], 7), ([], 0), ([], 0)],
            [false, true, false, false], -1, 1, 4, 1⟩ : HashTable).first_index,
        last_index := if ((1 : Nat) : Int) =
            (⟨[([], 0), ([97], 7), ([], 0), ([], 0)],
              [false, true, false, false], -1, 1, 4, 1⟩ : HashTable).last_index
          then -1 else (⟨[([], 0), ([97], 7), ([], 0), ([], 0)],
            [false, true, false, false], -1, 1, 4, 1⟩ : HashTable).last_index } :=
  get_remove_skip_empty hashZero
    ⟨[([], 0), ([97], 7), ([], 0), ([], 0)], [false, true, false, false], -1, 1, 4, 1⟩
    1 (by decide) (by decide) (by decide) (by decide) (by decide)

/-- C4 counterexample: a store in which the key's home slot is empty but the
key occupies the next slot (reachable via insert/insert/remove).  The claim
says `get` fails with `KeyNotFound` as soon as an empty slot is encountered
on the probe path — the spec-modelled `getSpec` indeed fails — but the
code's `get` skips the empty slot and succeeds with the stored value. -/
theorem get_does_not_stop_at_empty :
    (⟨[([], 0), ([97], 7), ([], 0), ([], 0)], [false, true, false, false],
        -1, 1, 4, 1⟩ : HashTable).occupied.getD
      (homeIndex hashZero [97]
        (⟨[([], 0), ([97], 7), ([], 0), ([], 0)], [false, true, false, false],
          -1, 1, 4, 1⟩ : HashTable).size) false = false ∧
    get hashZero (⟨[([], 0), ([97], 7), ([], 0), ([], 0)],
        [false, true, false, false], -1, 1, 4, 1⟩ : HashTable) [97] = .ok 7 ∧
    getSpec hashZero (⟨[([], 0), ([97], 7), ([], 0), ([], 0)],
        [false, true, false, false], -1, 1, 4, 1⟩ : HashTable) [97] =
      .error .keyNotFound := by
  refine ⟨by decide, by decide, by decide⟩

/-- C4 (amended): `get(key)` probes up to `capacity` consecutive slots from
the key's home index, *skipping* empty slots: it succeeds with the stored
value iff the key occupies some slot, and fails with `KeyNotFound` iff the
key occupies no slot (in particular after `capacity` probes are exhausted).
Stated for stores with well-formed lengths and no duplicate occupied keys. -/
theorem get_characterisation :
    ∀ (hashFn : Key → Nat) (ht : HashTable) (k : Key),
      ht.table.length = ht.size → ht.occupied.length = ht.size →
      0 < ht.size →
      ((entriesZ ht.table ht.occupied).map Prod.fst).Nodup →
      (∀ v, get hashFn ht k = .ok v ↔ (k, v) ∈ entriesZ ht.table ht.occupied) ∧
      (get hashFn ht k = .error .keyNotFound ↔ ∀ j, ¬ isHit ht k j) := by
  intro hashFn ht k hlt hlo hpos hnd
  exact ⟨fun v => get_ok_iff hashFn ht k v hlt hlo hpos hnd,
    get_err_iff hashFn ht k hlt hlo hpos hnd⟩

theorem get_characterisation_witness :
    (∀ v, get hashZero (⟨[([], 0), ([97], 7), ([], 0), ([], 0)],
        [false, true, false, false], -1, 1, 4, 1⟩ : HashTable) [97] = .ok v ↔
      ([97], v) ∈ entriesZ (⟨[([], 0), ([97], 7), ([], 0), ([], 0)],
        [false, true, false, false], -1, 1, 4, 1⟩ : HashTable).table
        (⟨[([], 0), ([97], 7), ([], 0), ([], 0)],
          [false, true, false, false], -1, 1, 4, 1⟩ : HashTable).occupied) ∧
    (get hashZero (⟨[([], 0), ([97], 7), ([], 0), ([], 0)],
        [false, true, false, false], -1, 1, 4, 1⟩ : HashTable) [97] =
        .error .keyNotFound ↔
      ∀ j, ¬ isHit (⟨[([], 0), ([97], 7), ([], 0), ([], 0)],
        [false, true, false, false], -1, 1, 4, 1⟩ : HashTable) [97] j) :=
  get_characterisation hashZero
    ⟨[([], 0), ([97], 7), ([], 0), ([], 0)], [false, true, false, false], -1, 1, 4, 1⟩
    [97] (by decide) (by decide) (by decide) (by decide)

/-- C6 counterexample: in a reachable store (insert "b", insert "a" colliding
behind it, remove "b") the key "a" occupies slot 1 while its home slot 0 is
empty.  `insert("a", 9)` then does *not* overwrite slot 1: it stops at the
empty home slot, creates a duplicate of "a" at slot 0, increments the count
and changes `first_index`/`last_index` — contradicting the claim. -/
theorem insert_existing_key_duplicates :
    ReachL hashZero (⟨[([], 0), ([97], 7), ([], 0), ([], 0)],
      [false, true, false, false], -1, 1, 4, 1⟩ : HashTable) ∧
    (⟨[([], 0), ([97], 7), ([], 0), ([], 0)], [false, true, false, false],
        -1, 1, 4, 1⟩ : HashTable).occupied.getD 1 false = true ∧
    ((⟨[([], 0), ([97], 7), ([], 0), ([], 0)], [false, true, false, false],
        -1, 1, 4, 1⟩ : HashTable).table.getD 1 ([], 0)).1 = [97] ∧
    insert hashZero (⟨[([], 0), ([97], 7), ([], 0), ([], 0)],
        [false, true, false, false], -1, 1, 4, 1⟩ : HashTable) [97] 9 =
      .ok (⟨[([97], 9), ([97], 7), ([], 0), ([], 0)], [true, true, false, false],
        0, 0, 4, 2⟩ : HashTable) ∧
    (⟨[([97], 9), ([97], 7), ([], 0), ([], 0)], [true, true, false, false],
        0, 0, 4, 2⟩ : HashTable).elements_count ≠
      (⟨[([], 0), ([97], 7), ([], 0), ([], 0)], [false, true, false, false],
        -1, 1, 4, 1⟩ : HashTable).elements_count ∧
    ((⟨[([97], 9), ([97], 7), ([], 0), ([], 0)], [true, true, false, false],
        0, 0, 4, 2⟩ : HashTable).table.getD 1 ([], 0)).2 = 7 := by
  refine ⟨?_, by decide, by decide, by decide, by decide, by decide⟩
  exact ReachL.remove_ok (ReachL.insert_ok (ReachL.insert_ok (ReachL.init 4)
    (show insert hashZero (HashTable.init 4) [98] 1 =
      .ok ⟨[([98], 1), ([], 0), ([], 0), ([], 0)], [true, false, false, false],
        0, 0, 4, 1⟩ by decide))
    (show insert hashZero (⟨[([98], 1), ([], 0), ([], 0), ([], 0)],
        [true, false, false, false], 0, 0, 4, 1⟩ : HashTable) [97] 7 =
      .ok ⟨[([98], 1), ([97], 7), ([], 0), ([], 0)], [true, true, false, false],
        0, 1, 4, 2⟩ by decide))
    (show remove hashZero (⟨[([98], 1), ([97], 7), ([], 0), ([], 0)],
        [true, true, false, false], 0, 1, 4, 2⟩ : HashTable) [98] =
      .ok ⟨[([], 0), ([97], 7), ([], 0), ([], 0)], [false, true, false, false],
        -1, 1, 4, 1⟩ by decide)

/-- C6 (amended): provided the store is not full (`count ≠ capacity`, so no
resize fires) and every slot on the probe path from the key's home index up
to the key's slot is occupied (no empty slot intervenes — otherwise the
probe stops early and duplicates the key), `insert` on an existing key
overwrites exactly that slot's value in place: the slot does not move and
`count`, `first_index`, `last_index` and every other slot are unchanged. -/
theorem insert_overwrite_in_place :
    ∀ (hashFn : Key → Nat) (ht : HashTable) (k : Key) (v : Int) (i t0 : Nat),
      ht.elements_count ≠ (ht.size : Int) →
      t0 < ht.size →
      (homeIndex hashFn k ht.size + t0) % ht.size = i →
      (∀ t, t < t0 →
        ht.occupied.getD ((homeIndex hashFn k ht.size + t) % ht.size) false = true ∧
        (ht.table.getD ((homeIndex hashFn k ht.size + t) % ht.size) ([], 0)).1 ≠ k) →
      isHit ht k i →
      insert hashFn ht k v =
        .ok { ht with table := ht.table.set i ((ht.table.getD i ([], 0)).1, v) } := by
  intro hashFn ht k v i t0 hnf ht0 heq hpre hit
  have hpos : 0 < ht.size := by omega
  rw [insert_def, if_neg hnf]
  exact insertAux_overwrite k v ht t0 _ ht.size i ht0 (Nat.mod_lt _ hpos) heq
    hpre hit

theorem insert_overwrite_in_place_witness :
    insert hashZero (⟨[([97], 1), ([], 0), ([], 0), ([], 0)],
        [true, false, false, false], 0, 0, 4, 1⟩ : HashTable) [97] 9 =
      .ok { (⟨[([97], 1), ([], 0), ([], 0), ([], 0)],
          [true, false, false, false], 0, 0, 4, 1⟩ : HashTable) with
        table := (⟨[([97], 1), ([], 0), ([], 0), ([], 0)],
          [true, false, false, false], 0, 0, 4, 1⟩ : HashTable).table.set 0
            (((⟨[([97], 1), ([], 0), ([], 0), ([], 0)],
              [true, false, false, false], 0, 0, 4, 1⟩ : HashTable).table.getD 0
                ([], 0)).1, 9) } :=
  insert_overwrite_in_place hashZero
    ⟨[([97], 1), ([], 0), ([], 0), ([], 0)], [true, false, false, false], 0, 0, 4, 1⟩
    [97] 9 0 0 (by decide) (by decide) (by decide)
    (fun t htt => absurd htt (by omega)) ⟨by decide, by decide⟩

/-- C9 counterexample: loading a 16-byte file whose header claims
`count = 1` but whose body is missing (a truncated save) yields a store —
reachable by a single `load` as the claim lists the operations — whose
`elements_count` is 1 while no slot is occupied, violating
`count = number of occupied slots`. -/
theorem load_breaks_count_invariant :
    ReachL hashZero (⟨[([], 0)], [false], 0, 0, 1, 1⟩ : HashTable) ∧
    (⟨[([], 0)], [false], 0, 0, 1, 1⟩ : HashTable).elements_count ≠
      (((⟨[([], 0)], [false], 0, 0, 1, 1⟩ : HashTable).occupied.count true : Nat) :
        Int) := by
  constructor
  · exact ReachL.load_ok (ReachL.init 1)
      (show load_from_file (some [1, 0, 0, 0, 1, 0, 0, 0, 0, 0, 0, 0, 0, 0, 0, 0])
          (HashTable.init 1) =
        some (true, ⟨[([], 0)], [false], 0, 0, 1, 1⟩) by decide)
  · decide

/-- C9 (amended): in every store state reachable from a freshly constructed
store by `insert`, `remove` and growth (`save_to_file` does not modify the
store), the `elements_count` field equals the number of slots with
`occupied = true` and `0 ≤ count ≤ capacity`.  `load_from_file` is excluded:
a truncated or corrupt file produces a store violating the invariant. -/
theorem reachable_count_invariant :
    ∀ (hashFn : Key → Nat) (ht : HashTable), Reach hashFn ht →
      ht.elements_count = ((ht.occupied.count true : Nat) : Int) ∧
      0 ≤ ht.elements_count ∧ ht.elements_count ≤ (ht.size : Int) := by
  intro hashFn ht h
  obtain ⟨hlt, hlo, hcnt⟩ := reach_sound hashFn ht h
  have hle : ht.occupied.count true ≤ ht.occupied.length :=
    List.count_le_length _ _
  refine ⟨hcnt, by omega, by omega⟩

theorem reachable_count_invariant_witness :
    (HashTable.init 4).elements_count =
      (((HashTable.init 4).occupied.count true : Nat) : Int) ∧
    0 ≤ (HashTable.init 4).elements_count ∧
    (HashTable.init 4).elements_count ≤ ((HashTable.init 4).size : Int) :=
  reachable_count_invariant hashZero (HashTable.init 4) (Reach.init 4)

theorem getD_replicate {α} (n j : Nat) (a : α) :
    (List.replicate n a).getD j a = a := by
  rcases Nat.lt_or_ge j n with hj | hj
  · rw [getD_lt _ _ _ (by simpa using hj)]
    exact List.getElem_replicate ..
  · exact getD_ge _ _ _ (by simpa using hj)

theorem count_replicate_false (n : Nat) :
    (List.replicate n false).count true = 0 := by
  rw [List.count_replicate]
  simp

theorem exc_bind_ok {ε α β : Type} (a : α) (f : α → Except ε β) :
    (Except.ok (ε := ε) a).bind f = f a := rfl

theorem scenario_core (h : Key → Nat) (x w : Nat) (hx4 : x < 4) (hw4 : w < 4)
    (hwx : w ≠ x) (hxd : homeIndex h [97] 4 = x)
    (hs2 : insert h (⟨(List.replicate 4 ([], 0)).set x ([97], 1),
        (List.replicate 4 false).set x true, (x : Int), (x : Int), 4, 1⟩ : HashTable)
        [98] 2 =
      .ok (⟨((List.replicate 4 ([], 0)).set x ([97], 1)).set w ([98], 2),
        ((List.replicate 4 false).set x true).set w true,
        (x : Int), (w : Int), 4, 2⟩ : HashTable)) :
    ∃ S : HashTable,
      (insert h (HashTable.init 4) [97] 1).bind (fun s1 =>
        (insert h s1 [98] 2).bind fun s2 => insert h s2 [97] 5) = .ok S ∧
      get_stats S = (2, 4) ∧ get h S [97] = .ok 5 ∧ get h S [98] = .ok 2 ∧
      0 ≤ S.first_index ∧ (S.table.getD S.first_index.toNat ([], 0)).1 = [97] ∧
      0 ≤ S.last_index ∧ (S.table.getD S.last_index.toNat ([], 0)).1 = [98] := by
  have hlocc : ((List.replicate 4 false).set x true).length = 4 := by simp
  have hocc2x : (((List.replicate 4 false).set x true).set w true).getD x false =
      true := by
    rw [getD_set_ne _ hwx, getD_set_self _ _ _ _ (by simpa using hx4)]
  have hocc2w : (((List.replicate 4 false).set x true).set w true).getD w false =
      true := by
    rw [getD_set_self _ _ _ _ (by simpa using hw4)]
  have htab2x : (((List.replicate 4 (([], 0) : Key × Int)).set x ([97], 1)).set w
      ([98], 2)).getD x ([], 0) = (([97] : Key), (1 : Int)) := by
    rw [getD_set_ne _ hwx, getD_set_self _ _ _ _ (by simpa using hx4)]
  have htab2w : (((List.replicate 4 (([], 0) : Key × Int)).set x ([97], 1)).set w
      ([98], 2)).getD w ([], 0) = (([98] : Key), (2 : Int)) := by
    rw [getD_set_self _ _ _ _ (by simpa using hw4)]
  have h1 : insert h (HashTable.init 4) [97] 1 =
      .ok (⟨(List.replicate 4 ([], 0)).set x ([97], 1),
        (List.replicate 4 false).set x true, (x : Int), (x : Int), 4, 1⟩ :
          HashTable) := by
    rw [insert_def, if_neg (by decide)]
    have hp := insertAux_place [97] 1 (HashTable.init 4) 0 x 4 x (by omega)
      hx4 (by rw [Nat.add_zero]; exact Nat.mod_eq_of_lt hx4)
      (fun t htt => absurd htt (by omega))
      (by exact getD_replicate 4 x false)
    rw [show homeIndex h [97] (HashTable.init 4).size = x from hxd]
    rw [show (HashTable.init 4).size = 4 from rfl, hp]
    simp [HashTable.init]
  have hit3 : isHit (⟨((List.replicate 4 ([], 0)).set x ([97], 1)).set w ([98], 2),
      ((List.replicate 4 false).set x true).set w true,
      (x : Int), (w : Int), 4, 2⟩ : HashTable) [97] x := by
    constructor
    · exact hocc2x
    · rw [show (⟨((List.replicate 4 ([], 0)).set x ([97], 1)).set w ([98], 2),
        ((List.replicate 4 false).set x true).set w true,
        (x : Int), (w : Int), 4, 2⟩ : HashTable).table =
          ((List.replicate 4 ([], 0)).set x ([97], 1)).set w ([98], 2) from rfl,
        htab2x]
  have h3 : insert h (⟨((List.replicate 4 ([], 0)).set x ([97], 1)).set w ([98], 2),
      ((List.replicate 4 false).set x true).set w true,
      (x : Int), (w : Int), 4, 2⟩ : HashTable) [97] 5 =
      .ok (⟨(((List.replicate 4 ([], 0)).set x ([97], 1)).set w ([98], 2)).set x
          ([97], 5),
        ((List.replicate 4 false).set x true).set w true,
        (x : Int), (w : Int), 4, 2⟩ : HashTable) := by
    rw [insert_def, if_neg (by norm_num)]
    have hov := insertAux_overwrite [97] 5
      (⟨((List.replicate 4 ([], 0)).set x ([97], 1)).set w ([98], 2),
        ((List.replicate 4 false).set x true).set w true,
        (x : Int), (w : Int), 4, 2⟩ : HashTable) 0 x 4 x (by omega) hx4
      (by rw [Nat.add_zero]; exact Nat.mod_eq_of_lt hx4)
      (fun t htt => absurd htt (by omega)) hit3
    rw [show homeIndex h [97]
        (⟨((List.replicate 4 ([], 0)).set x ([97], 1)).set w ([98], 2),
          ((List.replicate 4 false).set x true).set w true,
          (x : Int), (w : Int), 4, 2⟩ : HashTable).size = x from hxd]
    rw [hov]
    dsimp only
    rw [htab2x]
  refine ⟨⟨(((List.replicate 4 ([], 0)).set x ([97], 1)).set w ([98], 2)).set x
      ([97], 5),
    ((List.replicate 4 false).set x true).set w true,
    (x : Int), (w : Int), 4, 2⟩, ?_, ?_, ?_, ?_, ?_, ?_, ?_, ?_⟩
  · rw [h1, exc_bind_ok, hs2, exc_bind_ok, h3]
  · rw [get_stats]
    have hc1 : ((List.replicate 4 false).set x true).count true = 1 := by
      rw [count_set_true _ _ (by simpa using hx4) (getD_replicate 4 x false),
        count_replicate_false]
    have hc2 : (((List.replicate 4 false).set x true).set w true).count true = 2 := by
      rw [count_set_true _ _ (by rw [hlocc]; exact hw4)
        (by rw [getD_set_ne _ (fun hh => hwx hh.symm), getD_replicate]), hc1]
    rw [show (⟨(((List.replicate 4 ([], 0)).set x ([97], 1)).set w ([98], 2)).set x
        ([97], 5),
      ((List.replicate 4 false).set x true).set w true,
      (x : Int), (w : Int), 4, 2⟩ : HashTable).occupied =
        ((List.replicate 4 false).set x true).set w true from rfl, hc2]
  · rw [get_def]
    have hS3x : ((((List.replicate 4 (([], 0) : Key × Int)).set x ([97], 1)).set w
        ([98], 2)).set x ([97], 5)).getD x ([], 0) = (([97] : Key), (5 : Int)) :=
      getD_set_self _ _ _ _ (by simpa using hx4)
    have hS3w : ((((List.replicate 4 (([], 0) : Key × Int)).set x ([97], 1)).set w
        ([98], 2)).set x ([97], 5)).getD w ([], 0) = (([98] : Key), (2 : Int)) := by
      rw [getD_set_ne _ (Ne.symm hwx), htab2w]
    have hit : isHit (⟨(((List.replicate 4 ([], 0)).set x ([97], 1)).set w
        ([98], 2)).set x ([97], 5),
        ((List.replicate 4 false).set x true).set w true,
        (x : Int), (w : Int), 4, 2⟩ : HashTable) [97] x := by
      refine ⟨hocc2x, ?_⟩
      dsimp only
      rw [hS3x]
    have huniq : ∀ j, isHit (⟨(((List.replicate 4 ([], 0)).set x ([97], 1)).set w
        ([98], 2)).set x ([97], 5),
        ((List.replicate 4 false).set x true).set w true,
        (x : Int), (w : Int), 4, 2⟩ : HashTable) [97] j → j = x := by
      rintro j ⟨hjo, hjk⟩
      dsimp only at hjo hjk
      by_cases hjx : j = x
      · exact hjx
      by_cases hjw : j = w
      · exfalso
        rw [hjw, hS3w] at hjk
        exact absurd hjk (by decide)
      · exfalso
        rw [getD_set_ne _ (fun hh => hjw hh.symm),
          getD_set_ne _ (fun hh => hjx hh.symm), getD_replicate] at hjo
        exact Bool.noConfusion hjo
    dsimp only
    rw [getAux_ok_of_hit _ [97] x huniq hit 4 (homeIndex h [97] 4)
      (Nat.mod_lt _ (by norm_num))
      (exists_probe_offset 4 x (homeIndex h [97] 4) (by norm_num) hx4
        (Nat.mod_lt _ (by norm_num)))]
    dsimp only
    rw [hS3x]
  · rw [get_def]
    have hS3x : ((((List.replicate 4 (([], 0) : Key × Int)).set x ([97], 1)).set w
        ([98], 2)).set x ([97], 5)).getD x ([], 0) = (([97] : Key), (5 : Int)) :=
      getD_set_self _ _ _ _ (by simpa using hx4)
    have hS3w : ((((List.replicate 4 (([], 0) : Key × Int)).set x ([97], 1)).set w
        ([98], 2)).set x ([97], 5)).getD w ([], 0) = (([98] : Key), (2 : Int)) := by
      rw [getD_set_ne _ (Ne.symm hwx), htab2w]
    have hit : isHit (⟨(((List.replicate 4 ([], 0)).set x ([97], 1)).set w
        ([98], 2)).set x ([97], 5),
        ((List.replicate 4 false).set x true).set w true,
        (x : Int), (w : Int), 4, 2⟩ : HashTable) [98] w := by
      refine ⟨hocc2w, ?_⟩
      dsimp only
      rw [hS3w]
    have huniq : ∀ j, isHit (⟨(((List.replicate 4 ([], 0)).set x ([97], 1)).set w
        ([98], 2)).set x ([97], 5),
        ((List.replicate 4 false).set x true).set w true,
        (x : Int), (w : Int), 4, 2⟩ : HashTable) [98] j → j = w := by
      rintro j ⟨hjo, hjk⟩
      dsimp only at hjo hjk
      by_cases hjw : j = w
      · exact hjw
      by_cases hjx : j = x
      · exfalso
        rw [hjx, hS3x] at hjk
        exact absurd hjk (by decide)
      · exfalso
        rw [getD_set_ne _ (fun hh => hjw hh.symm),
          getD_set_ne _ (fun hh => hjx hh.symm), getD_replicate] at hjo
        exact Bool.noConfusion hjo
    dsimp only
    rw [getAux_ok_of_hit _ [98] w huniq hit 4 (homeIndex h [98] 4)
      (Nat.mod_lt _ (by norm_num))
      (exists_probe_offset 4 w (homeIndex h [98] 4) (by norm_num) hw4
        (Nat.mod_lt _ (by norm_num)))]
    dsimp only
    rw [hS3w]
  · exact Int.natCast_nonneg x
  · dsimp only
    rw [Int.toNat_natCast,
      getD_set_self _ _ _ _ (by simpa using hx4)]
  · exact Int.natCast_nonneg w
  · dsimp only
    rw [Int.toNat_natCast, getD_set_ne _ (Ne.symm hwx), htab2w]

/-- C5 (amended): inserting `("a",1)`, `("b",2)`, `("a",5)` into an empty
capacity-4 store (for any hash function, hence for `std::hash`) gives
`stats() = (2,4)`, `get("a") = 5`, `get("b") = 2`, and `first_index` refers
to the slot holding `"a"` — but `last_index` refers to the slot holding
`"b"`, not `"a"`: the overwriting insert of `"a"` returns without touching
`last_index`, so the last tracked insertion is `"b"`. -/
theorem scenario_insert_tracking :
    ∀ hashFn : Key → Nat,
      ∃ S : HashTable,
        (insert hashFn (HashTable.init 4) [97] 1).bind (fun s1 =>
          (insert hashFn s1 [98] 2).bind fun s2 => insert hashFn s2 [97] 5) =
          .ok S ∧
        get_stats S = (2, 4) ∧
        get hashFn S [97] = .ok 5 ∧ get hashFn S [98] = .ok 2 ∧
        0 ≤ S.first_index ∧ (S.table.getD S.first_index.toNat ([], 0)).1 = [97] ∧
        0 ≤ S.last_index ∧ (S.table.getD S.last_index.toNat ([], 0)).1 = [98] := by
  intro h
  have hx4 : homeIndex h [97] 4 < 4 := Nat.mod_lt _ (by norm_num)
  have hy4 : homeIndex h [98] 4 < 4 := Nat.mod_lt _ (by norm_num)
  by_cases hyx : homeIndex h [98] 4 = homeIndex h [97] 4
  · refine scenario_core h (homeIndex h [97] 4) ((homeIndex h [97] 4 + 1) % 4)
      hx4 (Nat.mod_lt _ (by norm_num)) (by omega) rfl ?_
    rw [insert_def, if_neg (by norm_num)]
    dsimp only
    rw [hyx]
    have hp := insertAux_place [98] 2
      (⟨(List.replicate 4 ([], 0)).set (homeIndex h [97] 4) ([97], 1),
        (List.replicate 4 false).set (homeIndex h [97] 4) true,
        ((homeIndex h [97] 4 : Nat) : Int), ((homeIndex h [97] 4 : Nat) : Int),
        4, 1⟩ : HashTable) 1 (homeIndex h [97] 4) 4
      ((homeIndex h [97] 4 + 1) % 4) (by norm_num) hx4 rfl
      (by
        intro t htt
        have ht0 : t = 0 := by omega
        subst ht0
        constructor
        · dsimp only
          rw [Nat.add_zero, Nat.mod_eq_of_lt hx4,
            getD_set_self _ _ _ _ (by simpa using hx4)]
        · dsimp only
          rw [Nat.add_zero, Nat.mod_eq_of_lt hx4,
            getD_set_self _ _ _ _ (by simpa using hx4)]
          decide)
      (by
        dsimp only
        rw [getD_set_ne _ (by omega : homeIndex h [97] 4 ≠ (homeIndex h [97] 4 + 1) % 4),
          getD_replicate])
    rw [hp]
    have hne : ((homeIndex h [97] 4 : Nat) : Int) ≠ -1 := by omega
    simp [hne]
  · refine scenario_core h (homeIndex h [97] 4) (homeIndex h [98] 4) hx4 hy4
      hyx rfl ?_
    rw [insert_def, if_neg (by norm_num)]
    dsimp only
    have hp := insertAux_place [98] 2
      (⟨(List.replicate 4 ([], 0)).set (homeIndex h [97] 4) ([97], 1),
        (List.replicate 4 false).set (homeIndex h [97] 4) true,
        ((homeIndex h [97] 4 : Nat) : Int), ((homeIndex h [97] 4 : Nat) : Int),
        4, 1⟩ : HashTable) 0 (homeIndex h [98] 4) 4 (homeIndex h [98] 4)
      (by norm_num) hy4
      (by rw [Nat.add_zero]; exact Nat.mod_eq_of_lt hy4)
      (fun t htt => absurd htt (by omega))
      (by
        dsimp only
        rw [getD_set_ne _ (fun hh => hyx hh.symm), getD_replicate])
    rw [hp]
    have hne : ((homeIndex h [97] 4 : Nat) : Int) ≠ -1 := by omega
    simp [hne]

/-- C5 counterexample: running the scenario with a concrete hash stand-in,
`last_index` ends at the slot holding `"b"` (byte 98), not `"a"`: the claim
that both `first_index` and `last_index` refer to the slot holding `"a"` is
false — the overwriting insert does not update `last_index`. -/
theorem scenario_last_slot_holds_b :
    (insert hashZero (HashTable.init 4) [97] 1).bind (fun s1 =>
      (insert hashZero s1 [98] 2).bind fun s2 => insert hashZero s2 [97] 5) =
      .ok ⟨[([97], 5), ([98], 2), ([], 0), ([], 0)], [true, true, false, false],
        0, 1, 4, 2⟩ ∧
    ((⟨[([97], 5), ([98], 2), ([], 0), ([], 0)], [true, true, false, false],
        0, 1, 4, 2⟩ : HashTable).table.getD
      (⟨[([97], 5), ([98], 2), ([], 0), ([], 0)], [true, true, false, false],
        0, 1, 4, 2⟩ : HashTable).last_index.toNat ([], 0)).1 = [98] ∧
    ([98] : Key) ≠ [97] := by
  refine ⟨by decide, by decide, by decide⟩

theorem scenario8_core (h : Key → Nat) (x w : Nat) (hx4 : x < 4) (hw4 : w < 4)
    (hwx : w ≠ x) (hxd : homeIndex h helloKey 4 = x)
    (hs2 : insert h (⟨(List.replicate 4 ([], 0)).set x (helloKey, 1),
        (List.replicate 4 false).set x true, (x : Int), (x : Int), 4, 1⟩ :
          HashTable) worldKey 1 =
      .ok (⟨((List.replicate 4 ([], 0)).set x (helloKey, 1)).set w (worldKey, 1),
        ((List.replicate 4 false).set x true).set w true,
        (x : Int), (w : Int), 4, 2⟩ : HashTable)) :
    ∃ S : HashTable,
      extract_words h (splitWS helloWorldBytes) (HashTable.init 4) = .ok S ∧
      get h S helloKey = .ok 2 ∧ get h S worldKey = .ok 1 ∧
      get_stats S = (2, 4) := by
  have hocc2x : (((List.replicate 4 false).set x true).set w true).getD x false =
      true := by
    rw [getD_set_ne _ hwx, getD_set_self _ _ _ _ (by simpa using hx4)]
  have hocc2w : (((List.replicate 4 false).set x true).set w true).getD w false =
      true := by
    rw [getD_set_self _ _ _ _ (by simpa using hw4)]
  have htab2x : (((List.replicate 4 (([], 0) : Key × Int)).set x (helloKey, 1)).set
      w (worldKey, 1)).getD x ([], 0) = (helloKey, (1 : Int)) := by
    rw [getD_set_ne _ hwx, getD_set_self _ _ _ _ (by simpa using hx4)]
  have htab2w : (((List.replicate 4 (([], 0) : Key × Int)).set x (helloKey, 1)).set
      w (worldKey, 1)).getD w ([], 0) = (worldKey, (1 : Int)) := by
    rw [getD_set_self _ _ _ _ (by simpa using hw4)]
  have hget1 : get h (HashTable.init 4) helloKey = .error .keyNotFound := by
    rw [get_def]
    apply getAux_err_of_no_hit
    rintro j ⟨hjo, _⟩
    rw [show (HashTable.init 4).occupied = List.replicate 4 false from rfl,
      getD_replicate] at hjo
    exact Bool.noConfusion hjo
  have h1 : insert h (HashTable.init 4) helloKey 1 =
      .ok (⟨(List.replicate 4 ([], 0)).set x (helloKey, 1),
        (List.replicate 4 false).set x true, (x : Int), (x : Int), 4, 1⟩ :
          HashTable) := by
    rw [insert_def, if_neg (by decide)]
    have hp := insertAux_place helloKey 1 (HashTable.init 4) 0 x 4 x (by omega)
      hx4 (by rw [Nat.add_zero]; exact Nat.mod_eq_of_lt hx4)
      (fun t htt => absurd htt (by omega))
      (by exact getD_replicate 4 x false)
    rw [show homeIndex h helloKey (HashTable.init 4).size = x from hxd]
    rw [show (HashTable.init 4).size = 4 from rfl, hp]
    simp [HashTable.init]
  have hcw1 : countWord h (HashTable.init 4) helloKey =
      .ok (⟨(List.replicate 4 ([], 0)).set x (helloKey, 1),
        (List.replicate 4 false).set x true, (x : Int), (x : Int), 4, 1⟩ :
          HashTable) := by
    rw [countWord, hget1, h1]
  have hget2 : get h (⟨(List.replicate 4 ([], 0)).set x (helloKey, 1),
      (List.replicate 4 false).set x true, (x : Int), (x : Int), 4, 1⟩ :
        HashTable) worldKey = .error .keyNotFound := by
    rw [get_def]
    apply getAux_err_of_no_hit
    rintro j ⟨hjo, hjk⟩
    dsimp only at hjo hjk
    by_cases hjx : j = x
    · rw [hjx, getD_set_self _ _ _ _ (by simpa using hx4)] at hjk
      exact absurd hjk (by decide)
    · rw [getD_set_ne _ (fun hh => hjx hh.symm), getD_replicate] at hjo
      exact Bool.noConfusion hjo
  have hcw2 : countWord h (⟨(List.replicate 4 ([], 0)).set x (helloKey, 1),
      (List.replicate 4 false).set x true, (x : Int), (x : Int), 4, 1⟩ :
        HashTable) worldKey =
      .ok (⟨((List.replicate 4 ([], 0)).set x (helloKey, 1)).set w (worldKey, 1),
        ((List.replicate 4 false).set x true).set w true,
        (x : Int), (w : Int), 4, 2⟩ : HashTable) := by
    rw [countWord, hget2, hs2]
  have hit2 : isHit (⟨((List.replicate 4 ([], 0)).set x (helloKey, 1)).set w
      (worldKey, 1),
      ((List.replicate 4 false).set x true).set w true,
      (x : Int), (w : Int), 4, 2⟩ : HashTable) helloKey x := by
    refine ⟨hocc2x, ?_⟩
    dsimp only
    rw [htab2x]
  have huniq2 : ∀ j, isHit (⟨((List.replicate 4 ([], 0)).set x (helloKey, 1)).set
      w (worldKey, 1),
      ((List.replicate 4 false).set x true).set w true,
      (x : Int), (w : Int), 4, 2⟩ : HashTable) helloKey j → j = x := by
    rintro j ⟨hjo, hjk⟩
    dsimp only at hjo hjk
    by_cases hjx : j = x
    · exact hjx
    by_cases hjw : j = w
    · exfalso
      rw [hjw, htab2w] at hjk
      exact absurd hjk (by decide)
    · exfalso
      rw [getD_set_ne _ (fun hh => hjw hh.symm),
        getD_set_ne _ (fun hh => hjx hh.symm), getD_replicate] at hjo
      exact Bool.noConfusion hjo
  have hget3 : get h (⟨((List.replicate 4 ([], 0)).set x (helloKey, 1)).set w
      (worldKey, 1),
      ((List.replicate 4 false).set x true).set w true,
      (x : Int), (w : Int), 4, 2⟩ : HashTable) helloKey = .ok 1 := by
    rw [get_def]
    dsimp only
    rw [getAux_ok_of_hit _ helloKey x huniq2 hit2 4 (homeIndex h helloKey 4)
      (Nat.mod_lt _ (by norm_num))
      (exists_probe_offset 4 x (homeIndex h helloKey 4) (by norm_num) hx4
        (Nat.mod_lt _ (by norm_num)))]
    dsimp only
    rw [htab2x]
  have h3 : insert h (⟨((List.replicate 4 ([], 0)).set x (helloKey, 1)).set w
      (worldKey, 1),
      ((List.replicate 4 false).set x true).set w true,
      (x : Int), (w : Int), 4, 2⟩ : HashTable) helloKey (1 + 1) =
      .ok (⟨(((List.replicate 4 ([], 0)).set x (helloKey, 1)).set w
          (worldKey, 1)).set x (helloKey, 2),
        ((List.replicate 4 false).set x true).set w true,
        (x : Int), (w : Int), 4, 2⟩ : HashTable) := by
    rw [insert_def, if_neg (by norm_num)]
    have hov := insertAux_overwrite helloKey (1 + 1)
      (⟨((List.replicate 4 ([], 0)).set x (helloKey, 1)).set w (worldKey, 1),
        ((List.replicate 4 false).set x true).set w true,
        (x : Int), (w : Int), 4, 2⟩ : HashTable) 0 x 4 x (by omega) hx4
      (by rw [Nat.add_zero]; exact Nat.mod_eq_of_lt hx4)
      (fun t htt => absurd htt (by omega)) hit2
    rw [show homeIndex h helloKey
        (⟨((List.replicate 4 ([], 0)).set x (helloKey, 1)).set w (worldKey, 1),
          ((List.replicate 4 false).set x true).set w true,
          (x : Int), (w : Int), 4, 2⟩ : HashTable).size = x from hxd]
    rw [hov]
    dsimp only
    rw [htab2x]
    norm_num
  have hcw3 : countWord h (⟨((List.replicate 4 ([], 0)).set x (helloKey, 1)).set
      w (worldKey, 1),
      ((List.replicate 4 false).set x true).set w true,
      (x : Int), (w : Int), 4, 2⟩ : HashTable) helloKey =
      .ok (⟨(((List.replicate 4 ([], 0)).set x (helloKey, 1)).set w
          (worldKey, 1)).set x (helloKey, 2),
        ((List.replicate 4 false).set x true).set w true,
        (x : Int), (w : Int), 4, 2⟩ : HashTable) := by
    rw [countWord, hget3]
    show insert h (⟨((List.replicate 4 ([], 0)).set x (helloKey, 1)).set w
      (worldKey, 1),
      ((List.replicate 4 false).set x true).set w true,
      (x : Int), (w : Int), 4, 2⟩ : HashTable) helloKey (1 + 1) = _
    exact h3
  have hsplit : splitWS helloWorldBytes =
      [[72, 101, 108, 108, 111, 44], [87, 111, 114, 108, 100, 33],
        [104, 101, 108, 108, 111]] := by decide
  have ht1 : splitWS (clean_text [72, 101, 108, 108, 111, 44]) =
      [[72, 101, 108, 108, 111]] := by decide
  have ht2 : splitWS (clean_text [87, 111, 114, 108, 100, 33]) =
      [[87, 111, 114, 108, 100]] := by decide
  have ht3 : splitWS (clean_text [104, 101, 108, 108, 111]) =
      [[104, 101, 108, 108, 111]] := by decide
  have hm1 : [72, 101, 108, 108, 111].map toLowerByte = helloKey := by decide
  have hm2 : [87, 111, 114, 108, 100].map toLowerByte = worldKey := by decide
  have hm3 : [104, 101, 108, 108, 111].map toLowerByte = helloKey := by decide
  have hc1 : countSubwords h [[72, 101, 108, 108, 111]] (HashTable.init 4) =
      .ok (⟨(List.replicate 4 ([], 0)).set x (helloKey, 1),
        (List.replicate 4 false).set x true, (x : Int), (x : Int), 4, 1⟩ :
          HashTable) := by
    simp only [countSubwords, hm1]
    rw [if_neg (show ¬ (helloKey = ([] : Key)) by decide), hcw1]
  have hc2 : countSubwords h [[87, 111, 114, 108, 100]]
      (⟨(List.replicate 4 ([], 0)).set x (helloKey, 1),
        (List.replicate 4 false).set x true, (x : Int), (x : Int), 4, 1⟩ :
          HashTable) =
      .ok (⟨((List.replicate 4 ([], 0)).set x (helloKey, 1)).set w (worldKey, 1),
        ((List.replicate 4 false).set x true).set w true,
        (x : Int), (w : Int), 4, 2⟩ : HashTable) := by
    simp only [countSubwords, hm2]
    rw [if_neg (show ¬ (worldKey = ([] : Key)) by decide), hcw2]
  have hc3 : countSubwords h [[104, 101, 108, 108, 111]]
      (⟨((List.replicate 4 ([], 0)).set x (helloKey, 1)).set w (worldKey, 1),
        ((List.replicate 4 false).set x true).set w true,
        (x : Int), (w : Int), 4, 2⟩ : HashTable) =
      .ok (⟨(((List.replicate 4 ([], 0)).set x (helloKey, 1)).set w
          (worldKey, 1)).set x (helloKey, 2),
        ((List.replicate 4 false).set x true).set w true,
        (x : Int), (w : Int), 4, 2⟩ : HashTable) := by
    simp only [countSubwords, hm3]
    rw [if_neg (show ¬ (helloKey = ([] : Key)) by decide), hcw3]
  have hS3x : ((((List.replicate 4 (([], 0) : Key × Int)).set x (helloKey, 1)).set
      w (worldKey, 1)).set x (helloKey, 2)).getD x ([], 0) =
      (helloKey, (2 : Int)) :=
    getD_set_self _ _ _ _ (by simpa using hx4)
  have hS3w : ((((List.replicate 4 (([], 0) : Key × Int)).set x (helloKey, 1)).set
      w (worldKey, 1)).set x (helloKey, 2)).getD w ([], 0) =
      (worldKey, (1 : Int)) := by
    rw [getD_set_ne _ (Ne.symm hwx), htab2w]
  refine ⟨⟨(((List.replicate 4 ([], 0)).set x (helloKey, 1)).set w
      (worldKey, 1)).set x (helloKey, 2),
    ((List.replicate 4 false).set x true).set w true,
    (x : Int), (w : Int), 4, 2⟩, ?_, ?_, ?_, ?_⟩
  · rw [hsplit]
    simp only [extract_words, ht1, hc1, ht2, hc2, ht3, hc3]
  · rw [get_def]
    have hit : isHit (⟨(((List.replicate 4 ([], 0)).set x (helloKey, 1)).set w
        (worldKey, 1)).set x (helloKey, 2),
        ((List.replicate 4 false).set x true).set w true,
        (x : Int), (w : Int), 4, 2⟩ : HashTable) helloKey x := by
      refine ⟨hocc2x, ?_⟩
      dsimp only
      rw [hS3x]
    have huniq : ∀ j, isHit (⟨(((List.replicate 4 ([], 0)).set x
        (helloKey, 1)).set w (worldKey, 1)).set x (helloKey, 2),
        ((List.replicate 4 false).set x true).set w true,
        (x : Int), (w : Int), 4, 2⟩ : HashTable) helloKey j → j = x := by
      rintro j ⟨hjo, hjk⟩
      dsimp only at hjo hjk
      by_cases hjx : j = x
      · exact hjx
      by_cases hjw : j = w
      · exfalso
        rw [hjw, hS3w] at hjk
        exact absurd hjk (by decide)
      · exfalso
        rw [getD_set_ne _ (fun hh => hjw hh.symm),
          getD_set_ne _ (fun hh => hjx hh.symm), getD_replicate] at hjo
        exact Bool.noConfusion hjo
    dsimp only
    rw [getAux_ok_of_hit _ helloKey x huniq hit 4 (homeIndex h helloKey 4)
      (Nat.mod_lt _ (by norm_num))
      (exists_probe_offset 4 x (homeIndex h helloKey 4) (by norm_num) hx4
        (Nat.mod_lt _ (by norm_num)))]
    dsimp only
    rw [hS3x]
  · rw [get_def]
    have hit : isHit (⟨(((List.replicate 4 ([], 0)).set x (helloKey, 1)).set w
        (worldKey, 1)).set x (helloKey, 2),
        ((List.replicate 4 false).set x true).set w true,
        (x : Int), (w : Int), 4, 2⟩ : HashTable) worldKey w := by
      refine ⟨hocc2w, ?_⟩
      dsimp only
      rw [hS3w]
    have huniq : ∀ j, isHit (⟨(((List.replicate 4 ([], 0)).set x
        (helloKey, 1)).set w (worldKey, 1)).set x (helloKey, 2),
        ((List.replicate 4 false).set x true).set w true,
        (x : Int), (w : Int), 4, 2⟩ : HashTable) worldKey j → j = w := by
      rintro j ⟨hjo, hjk⟩
      dsimp only at hjo hjk
      by_cases hjw : j = w
      · exact hjw
      by_cases hjx : j = x
      · exfalso
        rw [hjx, hS3x] at hjk
        exact absurd hjk (by decide)
      · exfalso
        rw [getD_set_ne _ (fun hh => hjw hh.symm),
          getD_set_ne _ (fun hh => hjx hh.symm), getD_replicate] at hjo
        exact Bool.noConfusion hjo
    dsimp only
    rw [getAux_ok_of_hit _ worldKey w huniq hit 4 (homeIndex h worldKey 4)
      (Nat.mod_lt _ (by norm_num))
      (exists_probe_offset 4 w (homeIndex h worldKey 4) (by norm_num) hw4
        (Nat.mod_lt _ (by norm_num)))]
    dsimp only
    rw [hS3w]
  · rw [get_stats]
    have hc1 : ((List.replicate 4 false).set x true).count true = 1 := by
      rw [count_set_true _ _ (by simpa using hx4) (getD_replicate 4 x false),
        count_replicate_false]
    have hc2 : (((List.replicate 4 false).set x true).set w true).count true =
        2 := by
      rw [count_set_true _ _ (by simp; exact hw4)
        (by rw [getD_set_ne _ (fun hh => hwx hh.symm), getD_replicate]), hc1]
    dsimp only
    rw [hc2]

/-- C8: running the rebuild path's tokenizer and counter (`extract_words`,
i.e. whitespace tokenization, `clean_text`'s replacement of non-alphanumeric
runs by a single space, lower-casing, empty-sub-token skipping, and the
get/insert counting protocol) on the bytes of `"Hello, World! hello"` over an
empty capacity-4 store yields exactly the counts `hello = 2` and `world = 1`
(for any hash function, hence for `std::hash`). -/
theorem tokenize_scenario :
    ∀ hashFn : Key → Nat,
      ∃ S : HashTable,
        extract_words hashFn (splitWS helloWorldBytes) (HashTable.init 4) =
          .ok S ∧
        get hashFn S helloKey = .ok 2 ∧ get hashFn S worldKey = .ok 1 ∧
        get_stats S = (2, 4) := by
  intro h
  have hx4 : homeIndex h helloKey 4 < 4 := Nat.mod_lt _ (by norm_num)
  have hy4 : homeIndex h worldKey 4 < 4 := Nat.mod_lt _ (by norm_num)
  by_cases hyx : homeIndex h worldKey 4 = homeIndex h helloKey 4
  · refine scenario8_core h (homeIndex h helloKey 4)
      ((homeIndex h helloKey 4 + 1) % 4) hx4 (Nat.mod_lt _ (by norm_num))
      (by omega) rfl ?_
    rw [insert_def, if_neg (by norm_num)]
    dsimp only
    rw [hyx]
    have hp := insertAux_place worldKey 1
      (⟨(List.replicate 4 ([], 0)).set (homeIndex h helloKey 4) (helloKey, 1),
        (List.replicate 4 false).set (homeIndex h helloKey 4) true,
        ((homeIndex h helloKey 4 : Nat) : Int),
        ((homeIndex h helloKey 4 : Nat) : Int), 4, 1⟩ : HashTable) 1
      (homeIndex h helloKey 4) 4 ((homeIndex h helloKey 4 + 1) % 4)
      (by norm_num) hx4 rfl
      (by
        intro t htt
        have ht0 : t = 0 := by omega
        subst ht0
        constructor
        · dsimp only
          rw [Nat.add_zero, Nat.mod_eq_of_lt hx4,
            getD_set_self _ _ _ _ (by simpa using hx4)]
        · dsimp only
          rw [Nat.add_zero, Nat.mod_eq_of_lt hx4,
            getD_set_self _ _ _ _ (by simpa using hx4)]
          decide)
      (by
        dsimp only
        rw [getD_set_ne _
          (by omega : homeIndex h helloKey 4 ≠ (homeIndex h helloKey 4 + 1) % 4),
          getD_replicate])
    rw [hp]
    have hne : ((homeIndex h helloKey 4 : Nat) : Int) ≠ -1 := by omega
    simp [hne]
  · refine scenario8_core h (homeIndex h helloKey 4) (homeIndex h worldKey 4)
      hx4 hy4 hyx rfl ?_
    rw [insert_def, if_neg (by norm_num)]
    dsimp only
    have hp := insertAux_place worldKey 1
      (⟨(List.replicate 4 ([], 0)).set (homeIndex h helloKey 4) (helloKey, 1),
        (List.replicate 4 false).set (homeIndex h helloKey 4) true,
        ((homeIndex h helloKey 4 : Nat) : Int),
        ((homeIndex h helloKey 4 : Nat) : Int), 4, 1⟩ : HashTable) 0
      (homeIndex h worldKey 4) 4 (homeIndex h worldKey 4) (by norm_num) hy4
      (by rw [Nat.add_zero]; exact Nat.mod_eq_of_lt hy4)
      (fun t htt => absurd htt (by omega))
      (by
        dsimp only
        rw [getD_set_ne _ (fun hh => hyx hh.symm), getD_replicate])
    rw [hp]
    have hne : ((homeIndex h helloKey 4 : Nat) : Int) ≠ -1 := by omega
    simp [hne]

/-- C7: evaluated at the failing input — a 1-byte corpus (the byte of "a") —
the `compute_md5` read loop feeds *no* bytes to the digest (the final
partial buffer is dropped by `while (file.read(buffer, 4096))`), so not
every byte of the corpus contributes; and the hex rendering (no
`setw`/`setfill`) is not fixed-length: an all-zero digest renders to 16
characters while an all-0xFF digest renders to 32. -/
theorem md5_partial_block_dropped :
    md5UpdatedBytes (List.replicate 1 97) = [] ∧
    List.replicate 1 97 ≠ ([] : List Nat) ∧
    md5HexLength (List.replicate 16 0) = 16 ∧
    md5HexLength (List.replicate 16 255) = 32 := by
  refine ⟨?_, by decide, by decide, by decide⟩
  rw [md5UpdatedBytes]
  norm_num

theorem save_load_roundtrip_witness :
    load_from_file
      (some (save_to_file ⟨[([97], 5), ([], 0)], [true, false], 0, 0, 2, 1⟩))
      (HashTable.init 2) =
      some (true, ⟨[([97], 5), ([], 0)], [true, false], 0, 0, 2, 1⟩) :=
  save_load_roundtrip ⟨[([97], 5), ([], 0)], [true, false], 0, 0, 2, 1⟩ 2
    (by decide) (by decide) (by decide) ⟨by decide, by decide⟩
    ⟨by decide, by decide⟩ ⟨by decide, by decide⟩
    (by
      intro i hi
      interval_cases i <;> exact ⟨by decide, by decide, by decide⟩)
